import Mathlib

/-!
Verification of the hidden-service descriptor envelope system of the `stem`
repository (`stem/descriptor/hidden_service.py`), as a shallow embedding.

Byte strings (Python `bytes`, and ASCII `str`) are modelled as `List Nat`
with every element `< 256`.  Python exceptions are modelled by `Except PyErr`
where `PyErr` records the Python exception class (`kind`) and the raise site
(`site`); the code under study raises `ValueError` at every data-dependent
failure site, with only the message text differing.

External collaborators that are not part of the repository checkout
(`hashlib.sha3_256`, `hashlib.shake_256`, AES-CTR from `cryptography`) are
universally quantified function parameters; collaborators that are part of
the repository but missing from the checkout (`stem/util/ed25519.py`,
`stem/util/str_tools.py`, `stem/util/tor_tools.py`,
`stem/descriptor/certificate.py`, `stem/client/datatype.py`,
`stem/descriptor/__init__.py`) are modelled from the specification, as
marked in their doc comments.
-/

namespace Stem

/-- Python exception classes raised by the code under study. -/
inductive PyKind
  | valueError
  | importError
  | exception
  deriving DecidableEq, Repr

/-- Raise sites of the code under study; the Python code distinguishes these
only by the message text of the raised exception, never by its class
(beyond `PyKind`). -/
inductive ErrSite
  | base64DecodeFailed
  | encryptedTooShort
  | macMismatch
  | noSigningKey
  | badAddressPattern
  | badChecksum
  | linkSpecifierParseFailed
  | certParseFailed
  | authKeyCertWrongType
  | encKeyCertWrongType
  | invalidPort
  | invalidAddress
  | authClientTooFewComponents
  | missingField (kw : String)
  | duplicateField (kw : String)
  | firstFieldNotHsDescriptor
  | lastFieldNotSignature
  | pointNotOnCurve
  deriving DecidableEq, Repr

/-- Python exception: class plus raise site. -/
structure PyErr where
  kind : PyKind
  site : ErrSite
  deriving DecidableEq, Repr

/-- Exception class of the outcome of a fallible computation (`none` when the
computation returned normally). -/
def errKind {α : Type} : Except PyErr α → Option PyKind
  | .error e => some e.kind
  | .ok _ => none

/-- Raise site of the outcome of a fallible computation. -/
def errSite {α : Type} : Except PyErr α → Option ErrSite
  | .error e => some e.site
  | .ok _ => none

/-! ## Generic list utilities (fuel-based chunking, bit vectors) -/

/-- Fuel-driven chunking: `chunksF fuel k l` splits `l` into consecutive
pieces of `k` elements (last piece possibly shorter).  Fuel keeps the
recursion structural so that terms reduce inside `decide` / `rfl`. -/
def chunksF {α : Type} : Nat → Nat → List α → List (List α)
  | 0, _, _ => []
  | _, _, [] => []
  | fuel + 1, k, l => l.take k :: chunksF fuel k (l.drop k)

/-- Split a list into consecutive pieces of `k` elements (last piece possibly
shorter).  For `k = 0` the result is garbage; all uses have `0 < k`. -/
def chunks {α : Type} (k : Nat) (l : List α) : List (List α) :=
  chunksF l.length k l

/-- Big-endian bits of `n`, `w` bits wide (the bit of weight `2 ^ (w - 1)`
first). -/
def natToBits : Nat → Nat → List Bool
  | 0, _ => []
  | w + 1, n => natToBits w (n / 2) ++ [decide (n % 2 = 1)]

/-- Value of a big-endian bit string. -/
def bitsToNat (l : List Bool) : Nat :=
  l.foldl (fun a bb => 2 * a + (if bb then 1 else 0)) 0

/-- Little-endian value of a byte string (bytes of ascending weight
left to right would be big-endian; Python `bytes` used by `ed25519.py` are
little-endian, first byte least significant). -/
def leNat : List Nat → Nat
  | [] => 0
  | a :: rest => a + 256 * leNat rest

/-- Big-endian `w`-byte encoding of `n` (`struct.pack` with a width-`w`
unsigned format). -/
def beBytes : Nat → Nat → List Nat
  | 0, _ => []
  | w + 1, n => n / 256 ^ w % 256 :: beBytes w (n % 256 ^ w)

/-- `struct.pack` with format `>Q`: 8-byte big-endian. -/
def be64 (n : Nat) : List Nat :=
  beBytes 8 n

/-- Option-valued map over a list, failing when any element fails. -/
def mapOpt {α β : Type} (f : α → Option β) : List α → Option (List β)
  | [] => some []
  | a :: l =>
    match f a, mapOpt f l with
    | some bb, some bs => some (bb :: bs)
    | _, _ => none

/-! ## C1: outer-layer padding (`OuterLayer._encrypt`) -/

/-- Plaintext that `OuterLayer._encrypt` submits to `_encrypt_layer`
(`hidden_service.py` line 1234): the layer's serialized bytes followed by
`len(content) % 10000` NUL bytes.  The code's own comment says the spec
mandates padding "to the nearest multiple of 10k bytes". -/
def outerEncryptPlaintext (content : List Nat) : List Nat :=
  content ++ List.replicate (content.length % 10000) 0

/-! ## C8: outer-layer authorized clients (`_parse_v3_outer_clients`) -/

/-- Python whitespace, the split set of `str.split()` with no argument. -/
def isPyWs (c : Char) : Bool :=
  c = ' ' || c = '\t' || c = '\n' || c = '\r' || c = '\x0b' || c = '\x0c'

/-- Accumulator-based whitespace splitter. -/
def splitWsAux : List Char → List Char → List (List Char)
  | [], acc => if acc.isEmpty then [] else [acc.reverse]
  | c :: cs, acc =>
    if isPyWs c then
      if acc.isEmpty then splitWsAux cs [] else acc.reverse :: splitWsAux cs []
    else
      splitWsAux cs (c :: acc)

/-- `str.split()` with no argument: split on runs of whitespace, no empty
components.  Modelled from the spec: `str` is the Python built-in, outside
the repository. -/
def pySplit (s : String) : List String :=
  (splitWsAux s.data []).map fun l => String.mk l

/-- Authorized client of a v3 hidden service, as constructed by
`_parse_v3_outer_clients` (all three fields supplied, so the randomized
defaults of `AuthorizedClient.__init__` are not taken). -/
structure AuthorizedClient where
  id : String
  iv : String
  cookie : String
  deriving DecidableEq, Repr

/-- Python `dict` assignment `d[k] = v`: replace in place if the key is
present, else append. -/
def dictInsert {β : Type} (k : String) (v : β) :
    List (String × β) → List (String × β)
  | [] => [(k, v)]
  | (k0, v0) :: rest =>
    if k0 = k then (k0, v) :: rest else (k0, v0) :: dictInsert k v rest

/-- Loop body of `_parse_v3_outer_clients`: fold the `auth-client` line
values in document order into a Python dict keyed by client id. -/
def parseOuterClientsGo :
    List String → List (String × AuthorizedClient) →
    Except PyErr (List (String × AuthorizedClient))
  | [], clients => .ok clients
  | v :: rest, clients =>
    let comp := pySplit v
    if comp.length < 3 then
      .error ⟨.valueError, .authClientTooFewComponents⟩
    else
      parseOuterClientsGo rest
        (dictInsert (comp.getD 0 "")
          ⟨comp.getD 0 "", comp.getD 1 "", comp.getD 2 ""⟩ clients)

/-- `_parse_v3_outer_clients` (`hidden_service.py` lines 579-594): parse the
`auth-client` line values of an outer layer into its `clients` dict. -/
def parseV3OuterClients (values : List String) :
    Except PyErr (List (String × AuthorizedClient)) :=
  parseOuterClientsGo values []

/-! ## C7: `HiddenServiceDescriptorV3.__init__` validation -/

/-- REQUIRED_V3_FIELDS (`hidden_service.py` lines 92-99). -/
def REQUIRED_V3_FIELDS : List String :=
  ["hs-descriptor", "descriptor-lifetime", "descriptor-signing-key-cert",
   "revision-counter", "superencrypted", "signature"]

/-- Entries as produced by the external tokenizer `_descriptor_components`
(modelled from the spec: "ordered multimap of keyword to values"): keywords
in first-occurrence order, each with its number of occurrences. -/
abbrev EntryMap : Type :=
  List (String × Nat)

/-- Occurrence count of a keyword in the entry map (`len(entries[keyword])`),
`none` when the keyword is absent. -/
def lookupCount (entries : EntryMap) (kw : String) : Option Nat :=
  (entries.find? fun e => e.1 = kw).map fun e => e.2

/-- First loop of the v3 validation (`hidden_service.py` lines 1069-1075):
every required field present, none more than once. -/
def checkRequiredFields : List String → EntryMap → Except PyErr Unit
  | [], _ => .ok ()
  | kw :: rest, entries =>
    match lookupCount entries kw with
    | none => .error ⟨.valueError, .missingField kw⟩
    | some n =>
      if n > 1 then .error ⟨.valueError, .duplicateField kw⟩
      else checkRequiredFields rest entries

/-- Structural validation performed by `HiddenServiceDescriptorV3.__init__`
with `validate=True` before `_parse` runs (`hidden_service.py` lines
1068-1080): required fields, each at most once, `hs-descriptor` first and
`signature` last in the keyword order of the entry map. -/
def validateV3Structure (entries : EntryMap) : Except PyErr Unit := do
  checkRequiredFields REQUIRED_V3_FIELDS entries
  if (entries.map Prod.fst).head? ≠ some "hs-descriptor" then
    .error ⟨.valueError, .firstFieldNotHsDescriptor⟩
  else if (entries.map Prod.fst).getLast? ≠ some "signature" then
    .error ⟨.valueError, .lastFieldNotSignature⟩
  else .ok ()

/-! ## C9: `HiddenServiceDescriptorV3.decrypt` caching -/

/-- Mutable state of a `HiddenServiceDescriptorV3` as far as `decrypt` reads
and writes it.  `OL` and `IL` are the (opaque) outer- and inner-layer
types; `signingCertKey` is `signing_cert.signing_key()` when a signing
certificate is present. -/
structure DescriptorV3State (IL : Type) where
  signingCertKey : Option (List Nat)
  superencrypted : List Nat
  revisionCounter : Nat
  innerLayer : Option IL

/-- `HiddenServiceDescriptorV3.decrypt` (`hidden_service.py` lines
1092-1121), with the collaborators (`identity_key_from_address`,
`_subcredential`, `OuterLayer._decrypt`, `InnerLayer._decrypt`) passed as
function parameters and the `self._inner_layer` cache as explicit state.
Returns the inner layer together with the updated state. -/
def descriptorV3Decrypt {OL IL : Type}
    (identityKeyFromAddr : List Nat → Except PyErr (List Nat))
    (subcredentialOf : List Nat → List Nat → List Nat)
    (outerDecrypt : List Nat → Nat → List Nat → List Nat → Except PyErr OL)
    (innerDecrypt : OL → Nat → List Nat → List Nat → Except PyErr IL)
    (s : DescriptorV3State IL) (onionAddress : List Nat) :
    Except PyErr (IL × DescriptorV3State IL) :=
  match s.innerLayer with
  | some il => .ok (il, s)
  | none =>
    match s.signingCertKey with
    | none => .error ⟨.valueError, .noSigningKey⟩
    | some blindedKey =>
      if blindedKey = [] then .error ⟨.valueError, .noSigningKey⟩
      else do
        let identityPublicKey ← identityKeyFromAddr onionAddress
        let sub := subcredentialOf identityPublicKey blindedKey
        let outer ← outerDecrypt s.superencrypted s.revisionCounter sub blindedKey
        let inner ← innerDecrypt outer s.revisionCounter sub blindedKey
        .ok (inner, { s with innerLayer := some inner })

/-! ## Base-N codecs (RFC 4648 base32 / base64, as Python `base64` implements
them).  Modelled from the spec: the `base64` module is the Python standard
library, outside the repository.  Both codecs are instances of one generic
bit-regrouping codec. -/

/-- Character table of base32 (A-Z then 2-7), as ASCII codes. -/
def b32charTbl (d : Nat) : Nat :=
  if d < 26 then 65 + d else 50 + (d - 26)

/-- Inverse character table of base32. -/
def b32digitTbl (c : Nat) : Option Nat :=
  if 65 ≤ c ∧ c ≤ 90 then some (c - 65)
  else if 50 ≤ c ∧ c ≤ 55 then some (26 + (c - 50))
  else none

/-- Character table of base64 (A-Z, a-z, 0-9, +, /), as ASCII codes. -/
def b64charTbl (d : Nat) : Nat :=
  if d < 26 then 65 + d
  else if d < 52 then 97 + (d - 26)
  else if d < 62 then 48 + (d - 52)
  else if d = 62 then 43
  else 47

/-- Inverse character table of base64. -/
def b64digitTbl (c : Nat) : Option Nat :=
  if 65 ≤ c ∧ c ≤ 90 then some (c - 65)
  else if 97 ≤ c ∧ c ≤ 122 then some (26 + (c - 97))
  else if 48 ≤ c ∧ c ≤ 57 then some (52 + (c - 48))
  else if c = 43 then some 62
  else if c = 47 then some 63
  else none

/-- Generic RFC 4648 encoder: bytes to character codes.  `w` is the bit
width of a digit (5 for base32, 6 for base64), `quantum` the output
alignment in characters (8 for base32, 4 for base64), `tbl` the character
table.  Zero bits pad the bit string to a multiple of `w`; `=` (code 61)
pads the output to a multiple of `quantum`. -/
def encodeBaseN (w quantum : Nat) (tbl : Nat → Nat) (bytes : List Nat) :
    List Nat :=
  let bits := bytes.flatMap (natToBits 8)
  let bits := bits ++ List.replicate ((w - bits.length % w) % w) false
  let cs := (chunks w bits).map fun c => tbl (bitsToNat c)
  cs ++ List.replicate ((quantum - cs.length % quantum) % quantum) 61

/-- Generic RFC 4648 decoder: character codes to bytes, `none` on malformed
input (wrong alignment, bad character, `=` not at the end). -/
def decodeBaseN (w quantum : Nat) (dtbl : Nat → Option Nat)
    (cs : List Nat) : Option (List Nat) :=
  if cs.length % quantum ≠ 0 then none
  else if ¬ (cs.dropWhile fun c => c ≠ 61).all fun c => c = 61 then none
  else
    (mapOpt dtbl (cs.takeWhile fun c => c ≠ 61)).map fun digits =>
      let bits := digits.flatMap (natToBits w)
      ((chunks 8 bits).filter fun c => c.length = 8).map bitsToNat

/-- `base64.b32encode`. -/
def b32encode (bytes : List Nat) : List Nat :=
  encodeBaseN 5 8 b32charTbl bytes

/-- `base64.b32decode` (strict, as the address codec uses it). -/
def b32decode (cs : List Nat) : Option (List Nat) :=
  decodeBaseN 5 8 b32digitTbl cs

/-- `base64.b64encode`. -/
def b64encode (bytes : List Nat) : List Nat :=
  encodeBaseN 6 4 b64charTbl bytes

/-- Test for membership in the base64 alphabet (incl. the pad character),
the characters `binascii.a2b_base64` does not discard. -/
def isB64Alphabet (c : Nat) : Bool :=
  (b64digitTbl c).isSome || c = 61

/-- `base64.b64decode` with `validate=False` (the default, used by
`_decrypt_layer`): characters outside the alphabet are discarded before
decoding. -/
def pyB64decode (cs : List Nat) : Option (List Nat) :=
  decodeBaseN 6 4 b64digitTbl (cs.filter isB64Alphabet)

/-! ## C10 / C6: introduction points -/

/-- Link specifier (modelled from the spec: `stem.client.datatype` is
missing from the checkout; a link specifier is a typed reachability
descriptor, here the address/port forms built by `create_for_address`). -/
inductive LinkSpecifierRep
  | byIPv4 (address : String) (port : Nat)
  | byIPv6 (address : String) (port : Nat)
  deriving DecidableEq, Repr

/-- Private-key object of the `cryptography` library, identified by its
public-key bytes (`stem.util._pubkey_bytes` of the object). -/
structure PrivKeyRep where
  pub : List Nat
  deriving DecidableEq, Repr

/-- `stem.util._pubkey_bytes` on a key object (`stem/util/__init__.py`
lines 77-107): for these objects, their public-key bytes. -/
def pubkeyBytes (k : PrivKeyRep) : List Nat :=
  k.pub

/-- Ed25519 certificate extension, by the constructor arguments
`Ed25519Extension(type, flags, data)` (modelled from the spec: the
certificate subsystem is an external collaborator). -/
structure Ed25519ExtensionRep where
  extensionType : Nat
  flagVal : Option Nat
  data : List Nat
  deriving DecidableEq, Repr

/-- Ed25519 certificate, by the constructor arguments
`Ed25519CertificateV1(cert_type, expiration, version, key, extensions,
signing_key)` (modelled from the spec: external collaborator). -/
structure Ed25519CertRep where
  certType : Nat
  expiration : Nat
  certVersion : Nat
  key : List Nat
  extensions : List Ed25519ExtensionRep
  signingKeyPub : List Nat
  deriving DecidableEq, Repr

/-- CertType.HS_V3_INTRO_AUTH tag (value 9 in `stem.client.datatype`). -/
def HS_V3_INTRO_AUTH : Nat := 9

/-- CertType.HS_V3_NTOR_ENC tag (value 11 in `stem.client.datatype`). -/
def HS_V3_NTOR_ENC : Nat := 11

/-- ExtensionType.HAS_SIGNING_KEY tag (value 4). -/
def HAS_SIGNING_KEY : Nat := 4

/-- `IntroductionPointV3` namedtuple (`hidden_service.py` line 151), with
the link-specifier and certificate types as parameters (certificates are
parsed through the external certificate collaborator). -/
structure IntroductionPointV3 (LS Cert : Type) where
  linkSpecifiers : List LS
  onionKeyRaw : Option (List Nat)
  authKeyCert : Cert
  encKeyRaw : Option (List Nat)
  encKeyCert : Cert
  legacyKeyRaw : Option (List Nat)
  legacyKeyCert : Option (List Nat)

/-- Random draws made by `IntroductionPointV3.create_for_link_specifiers`:
the four freshly generated key pairs and the default expiration
(`utcnow() + DEFAULT_EXPIRATION_HOURS`). -/
structure CreateRandomness where
  onionKeyGen : PrivKeyRep
  encKeyGen : PrivKeyRep
  authKeyGen : PrivKeyRep
  signingKeyGen : PrivKeyRep
  defaultExpiration : Nat

/-- `IntroductionPointV3.create_for_link_specifiers` (`hidden_service.py`
lines 242-280), with the nondeterministic draws passed in explicitly. -/
def createForLinkSpecifiers (links : List LinkSpecifierRep)
    (expiration : Option Nat) (onionKey encKey authKey : Option PrivKeyRep)
    (signingKey : Option PrivKeyRep) (r : CreateRandomness) :
    IntroductionPointV3 LinkSpecifierRep Ed25519CertRep :=
  let expiration := expiration.getD r.defaultExpiration
  let onionKeyB := b64encode (pubkeyBytes (onionKey.getD r.onionKeyGen))
  let encKeyB := b64encode (pubkeyBytes (encKey.getD r.encKeyGen))
  let authKeyB := pubkeyBytes (authKey.getD r.authKeyGen)
  let signingKey := signingKey.getD r.signingKeyGen
  let extensions : List Ed25519ExtensionRep :=
    [⟨HAS_SIGNING_KEY, none, pubkeyBytes signingKey⟩]
  let authKeyCert : Ed25519CertRep :=
    ⟨HS_V3_INTRO_AUTH, expiration, 1, authKeyB, extensions, pubkeyBytes signingKey⟩
  let encKeyCert : Ed25519CertRep :=
    ⟨HS_V3_NTOR_ENC, expiration, 1, authKeyB, extensions, pubkeyBytes signingKey⟩
  ⟨links, some onionKeyB, authKeyCert, some encKeyB, encKeyCert, none, none⟩

/-- `stem.util.connection.is_valid_port` (modelled from the spec: the
module is missing from the checkout; a port is an integer in 1..65535). -/
def isValidPort (port : Nat) : Bool :=
  1 ≤ port && port ≤ 65535

/-- `IntroductionPointV3.create_for_address` (`hidden_service.py` lines
208-240).  The IPv4/IPv6 validity tests come from the missing
`stem.util.connection` module and are function parameters.  Note the call
it makes: `create_for_link_specifiers(link_specifiers, expiration = None,
onion_key = None, enc_key = None, auth_key = None, signing_key = None)` -
the literal `None`s are in the source. -/
def createForAddress (isIPv4 isIPv6 : String → Bool)
    (address : String) (port : Nat)
    (_expiration : Option Nat) (_onionKey _encKey _authKey : Option PrivKeyRep)
    (_signingKey : Option PrivKeyRep) (r : CreateRandomness) :
    Except PyErr (IntroductionPointV3 LinkSpecifierRep Ed25519CertRep) :=
  if ¬ isValidPort port then .error ⟨.valueError, .invalidPort⟩
  else if isIPv4 address then
    .ok (createForLinkSpecifiers [.byIPv4 address port]
      none none none none none r)
  else if isIPv6 address then
    .ok (createForLinkSpecifiers [.byIPv6 address port]
      none none none none none r)
  else .error ⟨.valueError, .invalidAddress⟩

/-- Fields of the tokenized introduction-point record that
`IntroductionPointV3.parse` reads: each keyword's first entry as the
`(value, block_type, block_contents)` triple of the external tokenizer.
Block types are `String`s (`'ED25519 CERT'` expected); values and block
contents are byte strings. -/
structure IntroEntry where
  introPointValue : List Nat
  onionKeyValue : List Nat
  authKeyBlockType : String
  authKeyBlock : List Nat
  encKeyValue : List Nat
  encKeyCertBlockType : String
  encKeyCertBlock : List Nat
  legacyKeyBlock : Option (List Nat)
  legacyKeyCertBlock : Option (List Nat)

/-- ASCII codes of `'ntor '`. -/
def ntorSpace : List Nat :=
  [110, 116, 111, 114, 32]

/-- `IntroductionPointV3.parse` (`hidden_service.py` lines 166-206), with
the two external collaborators as parameters: `plinks` is
`_parse_link_specifiers` (depends on the missing `stem.client.datatype`),
`certB64` is `Ed25519Certificate.from_base64` (missing certificate
subsystem).  Note the source order: each certificate is parsed from base64
BEFORE its block type is checked. -/
def introPointParse {LS Cert : Type}
    (plinks : List Nat → Except PyErr (List LS))
    (certB64 : List Nat → Except PyErr Cert)
    (entry : IntroEntry) :
    Except PyErr (IntroductionPointV3 LS Cert) := do
  let linkSpecifiers ← plinks entry.introPointValue
  let onionKey :=
    if ntorSpace.isPrefixOf entry.onionKeyValue then
      some (entry.onionKeyValue.drop 5)
    else none
  let authKeyCert ← certB64 entry.authKeyBlock
  if entry.authKeyBlockType ≠ "ED25519 CERT" then
    .error ⟨.valueError, .authKeyCertWrongType⟩
  else
    let encKey :=
      if ntorSpace.isPrefixOf entry.encKeyValue then
        some (entry.encKeyValue.drop 5)
      else none
    let encKeyCert ← certB64 entry.encKeyCertBlock
    if entry.encKeyCertBlockType ≠ "ED25519 CERT" then
      .error ⟨.valueError, .encKeyCertWrongType⟩
    else
      .ok ⟨linkSpecifiers, onionKey, authKeyCert, encKey, encKeyCert,
        entry.legacyKeyBlock, entry.legacyKeyCertBlock⟩

/-! ## C3 / C4: the layered envelope codec (`_layer_cipher`,
`_encrypt_layer`, `_decrypt_layer`).

The three cryptographic primitives are external (`hashlib.shake_256`,
`hashlib.sha3_256`, AES-256-CTR of the `cryptography` package) and enter as
function parameters: `shake msg n` is the `n`-byte SHAKE-256 squeeze of
`msg`; `sha3 msg` is the 32-byte SHA3-256 digest of `msg`; `ks key iv n`
is the first `n` bytes of the AES-CTR keystream for `key` / `iv` (a CTR
cipher XORs the data with this keystream in both directions). -/

/-- SALT_LEN (`hidden_service.py` line 124). -/
def SALT_LEN : Nat := 16

/-- MAC_LEN (`hidden_service.py` line 125). -/
def MAC_LEN : Nat := 32

/-- S_KEY_LEN (`hidden_service.py` line 127). -/
def S_KEY_LEN : Nat := 32

/-- S_IV_LEN (`hidden_service.py` line 128). -/
def S_IV_LEN : Nat := 16

/-- KDF input of `_layer_cipher` (`hidden_service.py` line 533):
`blinded_key + subcredential + pack('>Q', revision_counter) + salt +
constant`. -/
def layerKdfInput (constant : List Nat) (revisionCounter : Nat)
    (subcredential blindedKey salt : List Nat) : List Nat :=
  blindedKey ++ subcredential ++ be64 revisionCounter ++ salt ++ constant

/-- Key material derived by `_layer_cipher` (`hidden_service.py` lines
533-538): SHAKE-256 squeezed to `S_KEY_LEN + S_IV_LEN + MAC_LEN` bytes and
split into cipher key, cipher IV and MAC key. -/
def layerKeys (shake : List Nat → Nat → List Nat) (constant : List Nat)
    (revisionCounter : Nat) (subcredential blindedKey salt : List Nat) :
    List Nat × List Nat × List Nat :=
  let keys := shake (layerKdfInput constant revisionCounter subcredential
    blindedKey salt) (S_KEY_LEN + S_IV_LEN + MAC_LEN)
  (keys.take S_KEY_LEN, (keys.drop S_KEY_LEN).take S_IV_LEN,
    keys.drop (S_KEY_LEN + S_IV_LEN))

/-- MAC input of `_layer_cipher` (`hidden_service.py` lines 541-543):
`pack('>Q', len(mac_key)) + mac_key + pack('>Q', len(salt)) + salt`
followed by the ciphertext. -/
def macInput (macKey salt ciphertext : List Nat) : List Nat :=
  be64 macKey.length ++ macKey ++ be64 salt.length ++ salt ++ ciphertext

/-- MAC of `_layer_cipher`: SHA3-256 of `macInput`. -/
def macFor (sha3 : List Nat → List Nat) (macKey salt ciphertext : List Nat) :
    List Nat :=
  sha3 (macInput macKey salt ciphertext)

/-- CTR-mode application of the keystream: XOR byte by byte (identical for
encryption and decryption). -/
def ctrApply (data stream : List Nat) : List Nat :=
  List.zipWith (fun a bb => a ^^^ bb) data stream

/-- Python `b'\n'.join`: concatenate the parts with one newline (code 10)
between consecutive parts. -/
def joinNl : List (List Nat) → List Nat
  | [] => []
  | [a] => a
  | a :: rest => a ++ 10 :: joinNl rest

/-- ASCII codes of `'-----BEGIN MESSAGE-----\n'` (24 characters). -/
def beginMessage : List Nat :=
  [45, 45, 45, 45, 45, 66, 69, 71, 73, 78, 32,
   77, 69, 83, 83, 65, 71, 69, 45, 45, 45, 45, 45, 10]

/-- ASCII codes of `'\n-----END MESSAGE-----'` (22 characters). -/
def endMessage : List Nat :=
  [10, 45, 45, 45, 45, 45, 69, 78, 68, 32,
   77, 69, 83, 83, 65, 71, 69, 45, 45, 45, 45, 45]

/-- `_encrypt_layer` (`hidden_service.py` lines 515-523), with the salt
(drawn by `os.urandom(16)` in the source) passed in explicitly:
base64-encode `salt + ciphertext + mac`, split into 64-character lines
(`stem.util.str_tools._split_by_length`, modelled from the spec), and wrap
in the MESSAGE block delimiters. -/
def encryptLayer (shake : List Nat → Nat → List Nat)
    (sha3 : List Nat → List Nat) (ks : List Nat → List Nat → Nat → List Nat)
    (salt plaintext constant : List Nat) (revisionCounter : Nat)
    (subcredential blindedKey : List Nat) : List Nat :=
  let km := layerKeys shake constant revisionCounter subcredential blindedKey salt
  let ciphertext := ctrApply plaintext (ks km.1 km.2.1 plaintext.length)
  let encoded := b64encode (salt ++ ciphertext ++ macFor sha3 km.2.2 salt ciphertext)
  beginMessage ++ joinNl (chunks 64 encoded) ++ endMessage

/-- Body of `_decrypt_layer` after base64 decoding (`hidden_service.py`
lines 495-512): length check, salt / ciphertext / MAC split, MAC
verification, CTR decryption. -/
def decryptLayerBytes (shake : List Nat → Nat → List Nat)
    (sha3 : List Nat → List Nat) (ks : List Nat → List Nat → Nat → List Nat)
    (encrypted constant : List Nat) (revisionCounter : Nat)
    (subcredential blindedKey : List Nat) : Except PyErr (List Nat) :=
  if encrypted.length < SALT_LEN + MAC_LEN then
    .error ⟨.valueError, .encryptedTooShort⟩
  else
    let salt := encrypted.take SALT_LEN
    let ciphertext := (encrypted.drop SALT_LEN).take (encrypted.length - (SALT_LEN + MAC_LEN))
    let expectedMac := encrypted.drop (encrypted.length - MAC_LEN)
    let km := layerKeys shake constant revisionCounter subcredential blindedKey salt
    if expectedMac ≠ macFor sha3 km.2.2 salt ciphertext then
      .error ⟨.valueError, .macMismatch⟩
    else
      .ok (ctrApply ciphertext (ks km.1 km.2.1 ciphertext.length))

/-- `_decrypt_layer` (`hidden_service.py` lines 486-512): strip the MESSAGE
block delimiters when present (`encrypted_block[24:-22]`), base64-decode,
then `decryptLayerBytes`. -/
def decryptLayer (shake : List Nat → Nat → List Nat)
    (sha3 : List Nat → List Nat) (ks : List Nat → List Nat → Nat → List Nat)
    (encryptedBlock constant : List Nat) (revisionCounter : Nat)
    (subcredential blindedKey : List Nat) : Except PyErr (List Nat) :=
  let block :=
    if beginMessage.isPrefixOf encryptedBlock ∧ endMessage.isSuffixOf encryptedBlock then
      (encryptedBlock.drop 24).take (encryptedBlock.length - 46)
    else encryptedBlock
  match pyB64decode block with
  | none => .error ⟨.valueError, .base64DecodeFailed⟩
  | some encrypted =>
    decryptLayerBytes shake sha3 ks encrypted constant revisionCounter
      subcredential blindedKey

/-! ## C2: the address codec (`address_from_identity_key`,
`identity_key_from_address`).  SHA3-256 is the external `hashlib.sha3_256`
and enters as a function parameter. -/

/-- CHECKSUM_CONSTANT (`hidden_service.py` line 122): `b'.onion checksum'`. -/
def CHECKSUM_CONSTANT : List Nat :=
  [46, 111, 110, 105, 111, 110, 32, 99, 104, 101, 99, 107, 115, 117, 109]

/-- ASCII codes of `'.onion'`. -/
def dotOnion : List Nat :=
  [46, 111, 110, 105, 111, 110]

/-- ASCII lower-casing of one byte (`str.lower` on ASCII text). -/
def lowerByte (c : Nat) : Nat :=
  if 65 ≤ c ∧ c ≤ 90 then c + 32 else c

/-- ASCII upper-casing of one byte (`str.upper` on ASCII text). -/
def upperByte (c : Nat) : Nat :=
  if 97 ≤ c ∧ c ≤ 122 then c - 32 else c

/-- `HiddenServiceDescriptorV3.address_from_identity_key`
(`hidden_service.py` lines 1123-1144): base32 of
`key + checksum + version`, lower-cased, with optional `.onion` suffix. -/
def addressFromIdentityKey (sha3 : List Nat → List Nat)
    (key : List Nat) (withSuffix : Bool) : List Nat :=
  let version := [3]
  let checksum := (sha3 (CHECKSUM_CONSTANT ++ key ++ version)).take 2
  let onionAddress := b32encode (key ++ checksum ++ version)
  (if withSuffix then onionAddress ++ dotOnion else onionAddress).map lowerByte

/-- Python `str.removesuffix`. -/
def removeSuffix (suf l : List Nat) : List Nat :=
  if suf.isSuffixOf l then l.take (l.length - suf.length) else l

/-- `stem.util.tor_tools.HS_V3_ADDRESS_PATTERN` (modelled from the spec:
the module is missing from the checkout; the spec gives the address format
as 56 characters of lowercase base32, i.e. the regex `[a-z2-7]` times 56). -/
def isHsV3AddressPattern (l : List Nat) : Bool :=
  l.length = 56 && l.all fun c => (97 ≤ c && c ≤ 122) || (50 ≤ c && c ≤ 55)

/-- `HiddenServiceDescriptorV3.identity_key_from_address`
(`hidden_service.py` lines 1146-1182): strip `.onion`, match the address
pattern, base32-decode the upper-cased address, split into
pubkey / checksum / version, verify the checksum. -/
def identityKeyFromAddress (sha3 : List Nat → List Nat)
    (onionAddress : List Nat) : Except PyErr (List Nat) :=
  let addr := removeSuffix dotOnion onionAddress
  if ¬ isHsV3AddressPattern addr then
    .error ⟨.valueError, .badAddressPattern⟩
  else
    match b32decode (addr.map upperByte) with
    | none => .error ⟨.valueError, .base64DecodeFailed⟩
    | some decoded =>
      let pubkey := decoded.take 32
      let expectedChecksum := (decoded.drop 32).take 2
      let version := (decoded.drop 34).take 1
      let checksum := (sha3 (CHECKSUM_CONSTANT ++ pubkey ++ version)).take 2
      if expectedChecksum ≠ checksum then
        .error ⟨.valueError, .badChecksum⟩
      else .ok pubkey

/-! ## C5: key blinding (`_blinded_pubkey` and the ed25519 collaborators).

The module `stem/util/ed25519.py` is missing from the checkout.  The
definitions in the `ed25519` namespace are modelled from the spec (section
"Manual curve arithmetic": `decode_point`, `encode_point`, `scalar_mult`
over the published Ed25519 curve parameters, as in the reference
implementation the spec describes).  `_blinded_pubkey` itself is in the
checkout (`hidden_service.py` lines 1379-1384). -/

namespace ed25519

/-- Curve constant `b` (bit length of encodings). -/
def b : Nat := 256

/-- Field prime `q = 2^255 - 19`. -/
def q : Int := 2 ^ 255 - 19

/-- Group order `l`. -/
def l : Int := 2 ^ 252 + 27742317777372353535851937790883648493

/-- Modular exponentiation, as the reference implementation's `expmod`. -/
def expmod (base : Int) (e : Nat) (m : Int) : Int :=
  if h : e = 0 then 1
  else
    let t := expmod base (e / 2) m ^ 2 % m
    if e % 2 = 1 then t * base % m else t
termination_by e
decreasing_by exact Nat.div_lt_self (Nat.pos_of_ne_zero h) (by omega)

/-- Modular inverse by Fermat. -/
def inv (x : Int) : Int :=
  expmod x (q - 2).toNat q

/-- Curve constant `d = -121665 * inv(121666)`. -/
def d : Int := -121665 * inv 121666

/-- Square root helper constant `I = 2^((q-1)/4) mod q`. -/
def I : Int := expmod 2 ((q - 1) / 4).toNat q

/-- x-coordinate recovery from a y-coordinate. -/
def xrecover (y : Int) : Int :=
  let xx := (y * y - 1) * inv (d * y * y + 1)
  let x := expmod xx ((q + 3) / 8).toNat q
  let x := if (x * x - xx) % q ≠ 0 then x * I % q else x
  if x % 2 ≠ 0 then q - x else x

/-- Edwards curve addition. -/
def edwards (P Q : Int × Int) : Int × Int :=
  let x3 := (P.1 * Q.2 + Q.1 * P.2) * inv (1 + d * P.1 * Q.1 * P.2 * Q.2)
  let y3 := (P.2 * Q.2 + P.1 * Q.1) * inv (1 - d * P.1 * Q.1 * P.2 * Q.2)
  (x3 % q, y3 % q)

/-- Scalar multiplication by binary decomposition. -/
def scalarmult (P : Int × Int) (e : Nat) : Int × Int :=
  if h : e = 0 then (0, 1)
  else
    let Q := scalarmult P (e / 2)
    let Q := edwards Q Q
    if e % 2 = 1 then edwards Q P else Q
termination_by e
decreasing_by exact Nat.div_lt_self (Nat.pos_of_ne_zero h) (by omega)

/-- Little-endian 32-byte encoding of a nonnegative value below `2^256`. -/
def leBytes : Nat → Nat → List Nat
  | 0, _ => []
  | w + 1, n => n % 256 :: leBytes w (n / 256)

/-- Point encoding: 255 bits of `y` little-endian, then the parity of `x`
as the top bit of the final byte. -/
def encodepoint (P : Int × Int) : List Nat :=
  leBytes 32 (P.2.toNat % 2 ^ 255 + P.1.toNat % 2 * 2 ^ 255)

/-- Bit `i` of a byte string, little-endian within and across bytes
(the reference implementation's `bit(h, i)`). -/
def bit (h : List Nat) (i : Nat) : Nat :=
  h.getD (i / 8) 0 >>> (i % 8) &&& 1

/-- On-curve test `-x^2 + y^2 - 1 - d x^2 y^2 = 0 (mod q)`. -/
def isoncurve (P : Int × Int) : Bool :=
  (-(P.1 * P.1) + P.2 * P.2 - 1 - d * P.1 * P.1 * P.2 * P.2) % q = 0

/-- Point decoding: read 255 bits of `y`, recover `x`, fix its parity from
the top bit, reject points off the curve. -/
def decodepoint (s : List Nat) : Except PyErr (Int × Int) :=
  let y : Int := ((Finset.range (b - 1)).sum fun i => 2 ^ i * bit s i : Nat)
  let x := xrecover y
  let x := if x % 2 ≠ (bit s (b - 1) : Int) then q - x else x
  let P := (x, y)
  if ¬ isoncurve P then .error ⟨.exception, .pointNotOnCurve⟩
  else .ok P

end ed25519

/-- Scalar computed by `_blinded_pubkey` (`hidden_service.py` line 1382):
`2 ** (b - 2) + sum(2 ** i * bit(blinding_nonce, i) for i in
range(3, b - 2))`. -/
def blindedPubkeyMult (blindingNonce : List Nat) : Nat :=
  2 ^ (ed25519.b - 2) +
    (Finset.Ico 3 (ed25519.b - 2)).sum fun i => 2 ^ i * ed25519.bit blindingNonce i

/-- `_blinded_pubkey` (`hidden_service.py` lines 1379-1384): decode the
identity key, multiply by the clamped nonce scalar, encode. -/
def blindedPubkey (identityKey blindingNonce : List Nat) :
    Except PyErr (List Nat) :=
  (ed25519.decodepoint identityKey).map fun P =>
    ed25519.encodepoint (ed25519.scalarmult P (blindedPubkeyMult blindingNonce))

/-- Clamped scalar as the specification words it: the little-endian value
of the 32-byte nonce with bits 0-2 and bit 255 cleared and bit 254 set. -/
def clampedScalarSpec (nonce : List Nat) : Nat :=
  2 ^ 254 + leNat nonce % 2 ^ 254 / 8 * 8

/-! ## Concrete stand-ins for the external primitives, used when evaluating
the embedded functions at specific inputs (any functions of the right type
would do; the theorems quantify over them). -/

/-- Hash stand-in: constant all-zero 32-byte digest. -/
def sha3zero : List Nat → List Nat := fun _ => List.replicate 32 0

/-- XOF stand-in: all-zero squeeze of the requested length. -/
def shakeZero : List Nat → Nat → List Nat := fun _ n => List.replicate n 0

/-- Keystream stand-in: all-zero keystream of the requested length. -/
def ksZero : List Nat → List Nat → Nat → List Nat := fun _ _ n => List.replicate n 0

/-! ## Lemmas: chunking -/

theorem chunksF_fuel_irrel {α : Type} (k : Nat) (hk : 0 < k) :
    ∀ (fuel1 fuel2 : Nat) (l : List α), l.length ≤ fuel1 → l.length ≤ fuel2 →
      chunksF fuel1 k l = chunksF fuel2 k l := by
  intro fuel1
  induction fuel1 with
  | zero =>
    intro fuel2 l h1 _
    have : l = [] := List.eq_nil_of_length_eq_zero (Nat.le_zero.mp h1)
    subst this
    cases fuel2 <;> rfl
  | succ f ih =>
    intro fuel2 l h1 h2
    cases l with
    | nil => cases fuel2 <;> rfl
    | cons a t =>
      cases fuel2 with
      | zero => simp at h2
      | succ f2 =>
        simp only [chunksF]
        congr 1
        apply ih
        · have := (a :: t).length_drop k
          simp only [List.length_cons] at h1 this ⊢
          omega
        · have := (a :: t).length_drop k
          simp only [List.length_cons] at h2 this ⊢
          omega

theorem chunks_nil {α : Type} (k : Nat) : chunks k ([] : List α) = [] := rfl

theorem chunks_cons {α : Type} (k : Nat) (hk : 0 < k) (l : List α)
    (hl : l ≠ []) : chunks k l = l.take k :: chunks k (l.drop k) := by
  unfold chunks
  cases l with
  | nil => exact absurd rfl hl
  | cons a t =>
    simp only [List.length_cons, chunksF]
    congr 1
    apply chunksF_fuel_irrel k hk
    · have := (a :: t).length_drop k
      simp only [List.length_cons] at this ⊢
      omega
    · exact Nat.le_refl _

theorem chunks_append {α : Type} (k : Nat) (hk : 0 < k) (l₁ l₂ : List α)
    (h : l₁.length = k) : chunks k (l₁ ++ l₂) = l₁ :: chunks k l₂ := by
  have hne : l₁ ++ l₂ ≠ [] := by
    intro hcon
    rw [List.append_eq_nil] at hcon
    rw [hcon.1] at h
    simp at h
    omega
  rw [chunks_cons k hk _ hne]
  subst h
  rw [List.take_left, List.drop_left]

theorem chunks_flatMap {α β : Type} (k : Nat) (hk : 0 < k)
    (f : α → List β) (hf : ∀ a, (f a).length = k) (l : List α) :
    chunks k (l.flatMap f) = l.map f := by
  induction l with
  | nil => rfl
  | cons a t ih =>
    rw [List.flatMap_cons, chunks_append k hk _ _ (hf a), ih, List.map_cons]

theorem chunks_flatten_aux {α : Type} (k : Nat) (hk : 0 < k) :
    ∀ (n : Nat) (l : List α), l.length ≤ n → (chunks k l).flatten = l := by
  intro n
  induction n with
  | zero =>
    intro l h
    have : l = [] := List.eq_nil_of_length_eq_zero (Nat.le_zero.mp h)
    subst this
    rfl
  | succ m ih =>
    intro l h
    cases l with
    | nil => rfl
    | cons a t =>
      rw [chunks_cons k hk (a :: t) (by simp), List.flatten_cons,
        ih ((a :: t).drop k) ?_, List.take_append_drop]
      simp only [List.length_drop, List.length_cons] at h ⊢
      omega

theorem chunks_flatten {α : Type} (k : Nat) (hk : 0 < k) (l : List α) :
    (chunks k l).flatten = l :=
  chunks_flatten_aux k hk l.length l (Nat.le_refl _)

theorem le_length_of_dvd_of_ne_nil {α : Type} {k : Nat} {l : List α}
    (hdvd : k ∣ l.length) (hl : l ≠ []) : k ≤ l.length := by
  rcases hdvd with ⟨m0, hm0⟩
  rcases m0 with _ | m1
  · rw [Nat.mul_zero] at hm0
    exact absurd (List.eq_nil_of_length_eq_zero hm0) hl
  · calc k ≤ k * (m1 + 1) := Nat.le_mul_of_pos_right k (Nat.succ_pos m1)
      _ = l.length := hm0.symm

theorem chunks_length_mem {α : Type} (k : Nat) (hk : 0 < k) :
    ∀ (n : Nat) (l : List α), l.length ≤ n → k ∣ l.length →
      ∀ c ∈ chunks k l, c.length = k := by
  intro n
  induction n with
  | zero =>
    intro l h _ c hc
    have : l = [] := List.eq_nil_of_length_eq_zero (Nat.le_zero.mp h)
    subst this
    simp [chunks_nil] at hc
  | succ m ih =>
    intro l h hdvd c hc
    cases l with
    | nil => simp [chunks_nil] at hc
    | cons a t =>
      rw [chunks_cons k hk (a :: t) (by simp)] at hc
      have hlk : k ≤ (a :: t).length := le_length_of_dvd_of_ne_nil hdvd (by simp)
      rcases List.mem_cons.mp hc with h1 | h2
      · rw [h1, List.length_take]
        simp only [List.length_cons] at hlk ⊢
        omega
      · refine ih ((a :: t).drop k) ?_ ?_ c h2
        · simp only [List.length_drop, List.length_cons] at h ⊢
          omega
        · rw [List.length_drop]
          exact (Nat.dvd_sub' hdvd (Nat.dvd_refl k))

theorem chunks_filter_full {α : Type} (k : Nat) (hk : 0 < k) :
    ∀ (n : Nat) (l t : List α), l.length ≤ n → k ∣ l.length → t.length < k →
      (chunks k (l ++ t)).filter (fun c => c.length = k) = chunks k l := by
  intro n
  induction n with
  | zero =>
    intro l t h hdvd ht
    have : l = [] := List.eq_nil_of_length_eq_zero (Nat.le_zero.mp h)
    subst this
    simp only [List.nil_append, chunks_nil]
    cases hl : t with
    | nil => subst hl; rfl
    | cons a s =>
      rw [← hl, chunks_cons k hk t (by simp [hl])]
      have h1 : t.take k = t := List.take_of_length_le (Nat.le_of_lt ht)
      have h2 : t.drop k = [] := List.drop_eq_nil_of_le (Nat.le_of_lt ht)
      rw [h1, h2, chunks_nil]
      simp only [List.filter_cons, List.filter_nil]
      have hne : ¬ (t.length = k) := Nat.ne_of_lt ht
      simp [hne]
  | succ m ih =>
    intro l t h hdvd ht
    cases l with
    | nil =>
      exact ih [] t (by simp) (by simp) ht
    | cons a s =>
      have hlk : k ≤ (a :: s).length := le_length_of_dvd_of_ne_nil hdvd (by simp)
      have hlt : (a :: s) ++ t ≠ [] := by simp
      rw [chunks_cons k hk _ hlt, chunks_cons k hk (a :: s) (by simp)]
      have htake : ((a :: s) ++ t).take k = (a :: s).take k :=
        List.take_append_of_le_length hlk
      have hdrop : ((a :: s) ++ t).drop k = (a :: s).drop k ++ t :=
        List.drop_append_of_le_length hlk
      rw [htake, hdrop]
      have hfull : ((a :: s).take k).length = k := by
        rw [List.length_take]
        simp only [List.length_cons] at hlk ⊢
        omega
      simp only [List.filter_cons, hfull]
      simp only [decide_True, if_true]
      congr 1
      refine ih ((a :: s).drop k) t ?_ ?_ ht
      · simp only [List.length_drop, List.length_cons] at h ⊢
        omega
      · rw [List.length_drop]
        exact Nat.dvd_sub' hdvd (Nat.dvd_refl k)

/-! ## Lemmas: bit vectors -/

theorem natToBits_length (w n : Nat) : (natToBits w n).length = w := by
  induction w generalizing n with
  | zero => rfl
  | succ v ih => simp [natToBits, ih]

theorem bitsToNat_go (l : List Bool) :
    ∀ a : Nat, l.foldl (fun x bb => 2 * x + (if bb then 1 else 0)) a =
      a * 2 ^ l.length + l.foldl (fun x bb => 2 * x + (if bb then 1 else 0)) 0 := by
  induction l with
  | nil => intro a; simp
  | cons bb t ih =>
    intro a
    simp only [List.foldl_cons, List.length_cons]
    rw [ih (2 * a + if bb then 1 else 0), ih (2 * 0 + if bb then 1 else 0)]
    ring

theorem bitsToNat_append (l₁ l₂ : List Bool) :
    bitsToNat (l₁ ++ l₂) = bitsToNat l₁ * 2 ^ l₂.length + bitsToNat l₂ := by
  unfold bitsToNat
  rw [List.foldl_append, bitsToNat_go l₂]

theorem bitsToNat_lt (l : List Bool) : bitsToNat l < 2 ^ l.length := by
  induction l with
  | nil => simp [bitsToNat]
  | cons bb t ih =>
    have h : bitsToNat (bb :: t) = bitsToNat [bb] * 2 ^ t.length + bitsToNat t :=
      bitsToNat_append [bb] t
    have hb : bitsToNat [bb] ≤ 1 := by cases bb <;> simp [bitsToNat]
    have h2 : (2 : Nat) ^ (bb :: t).length = 2 ^ t.length + 2 ^ t.length := by
      simp [List.length_cons, Nat.pow_succ]
      ring
    rw [h, h2]
    have := Nat.mul_le_mul_right (2 ^ t.length) hb
    omega

theorem bitsToNat_natToBits (w n : Nat) (h : n < 2 ^ w) :
    bitsToNat (natToBits w n) = n := by
  induction w generalizing n with
  | zero =>
    have : n = 0 := by simpa using h
    subst this
    rfl
  | succ v ih =>
    simp only [natToBits]
    rw [bitsToNat_append]
    have hdiv : n / 2 < 2 ^ v := by
      rw [Nat.pow_succ] at h
      omega
    rw [ih (n / 2) hdiv]
    have : bitsToNat [decide (n % 2 = 1)] = n % 2 := by
      rcases Nat.mod_two_eq_zero_or_one n with h0 | h1
      · simp [bitsToNat, h0]
      · simp [bitsToNat, h1]
    rw [this]
    simp only [List.length_singleton]
    omega

theorem natToBits_bitsToNat (w : Nat) (l : List Bool) (h : l.length = w) :
    natToBits w (bitsToNat l) = l := by
  induction w generalizing l with
  | zero =>
    have : l = [] := List.eq_nil_of_length_eq_zero h
    subst this
    rfl
  | succ v ih =>
    rcases List.eq_nil_or_concat l with hnil | ⟨l0, bb, hcat⟩
    · rw [hnil] at h
      exact absurd h (by simp)
    · subst hcat
      simp only [List.concat_eq_append] at h ⊢
      have hlen : l0.length = v := by
        simp only [List.length_append, List.length_singleton] at h
        omega
      have hval : bitsToNat (l0 ++ [bb]) = 2 * bitsToNat l0 + bitsToNat [bb] := by
        rw [bitsToNat_append]
        simp only [List.length_singleton, pow_one]
        ring
      have hb1 : bitsToNat [bb] ≤ 1 := by cases bb <;> simp [bitsToNat]
      have hd2 : (2 * bitsToNat l0 + bitsToNat [bb]) / 2 = bitsToNat l0 := by omega
      have hm2 : decide ((2 * bitsToNat l0 + bitsToNat [bb]) % 2 = 1) = bb := by
        cases bb with
        | false =>
          have hf : bitsToNat [false] = 0 := by simp [bitsToNat]
          rw [hf]
          simp [Nat.mul_add_mod]
        | true =>
          have ht : bitsToNat [true] = 1 := by simp [bitsToNat]
          rw [ht]
          simp [Nat.mul_add_mod]
      simp only [natToBits, hval, hd2, hm2, ih l0 hlen]

theorem flatMap_natToBits_length (w : Nat) (l : List Nat) :
    (l.flatMap (natToBits w)).length = w * l.length := by
  induction l with
  | nil => simp
  | cons a t ih =>
    simp only [List.flatMap_cons, List.length_append, natToBits_length, ih,
      List.length_cons]
    ring

theorem pad_mod_zero (a k : Nat) (hk : 0 < k) :
    (a + (k - a % k) % k) % k = 0 := by
  have hd := Nat.div_add_mod a k
  rcases Nat.eq_zero_or_pos (a % k) with h0 | hpos
  · rw [h0, Nat.sub_zero, Nat.mod_self, Nat.add_zero]
    exact h0
  · have hr : a % k < k := Nat.mod_lt a hk
    have h1 : (k - a % k) % k = k - a % k := Nat.mod_eq_of_lt (by omega)
    rw [h1]
    have h2 : a + (k - a % k) = k * (a / k) + k := by omega
    rw [h2, show k * (a / k) + k = k * (a / k + 1) by ring]
    exact Nat.mul_mod_right k (a / k + 1)

theorem pad_len_lt (a k : Nat) (hk : 0 < k) : (k - a % k) % k < k :=
  Nat.mod_lt _ hk

/-! ## Lemmas: mapOpt and takeWhile -/

theorem mapOpt_map_inverse {α β : Type} (f : α → Option β) (g : β → α)
    (l : List β) (h : ∀ d ∈ l, f (g d) = some d) :
    mapOpt f (l.map g) = some l := by
  induction l with
  | nil => rfl
  | cons a t ih =>
    simp only [List.map_cons, mapOpt]
    rw [h a (List.mem_cons_self a t), ih fun d hd => h d (List.mem_cons_of_mem a hd)]

theorem takeWhile_append_all {α : Type} (p : α → Bool) (l₁ l₂ : List α)
    (h1 : ∀ x ∈ l₁, p x = true) (h2 : ∀ x ∈ l₂, p x = false) :
    (l₁ ++ l₂).takeWhile p = l₁ ∧ (l₁ ++ l₂).dropWhile p = l₂ := by
  induction l₁ with
  | nil =>
    simp only [List.nil_append]
    cases l₂ with
    | nil => simp
    | cons a t =>
      have := h2 a (List.mem_cons_self a t)
      simp [List.takeWhile_cons, List.dropWhile_cons, this]
  | cons a t ih =>
    have hpa := h1 a (List.mem_cons_self a t)
    have hrest := ih (fun x hx => h1 x (List.mem_cons_of_mem a hx))
    simp only [List.cons_append, List.takeWhile_cons, List.dropWhile_cons, hpa]
    simp [hrest.1, hrest.2]

theorem flatMap_self_eq_flatten {α : Type} (l : List (List α)) :
    (l.flatMap fun c => c) = l.flatten := by
  induction l with
  | nil => rfl
  | cons a t ih => simp [List.flatMap_cons, ih]

theorem map_id_of_mem {α : Type} (l : List α) (f : α → α)
    (h : ∀ a ∈ l, f a = a) : l.map f = l := by
  conv_rhs => rw [← List.map_id l]
  exact List.map_congr_left h

/-! ## The generic RFC 4648 round trip -/

theorem decodeBaseN_encodeBaseN
    (w quantum : Nat) (hw : 0 < w) (hw8 : w ≤ 8) (hq : 0 < quantum)
    (tbl : Nat → Nat) (dtbl : Nat → Option Nat)
    (hinv : ∀ d, d < 2 ^ w → dtbl (tbl d) = some d)
    (hne : ∀ d, d < 2 ^ w → tbl d ≠ 61)
    (bytes : List Nat) (hB : ∀ x ∈ bytes, x < 256) :
    decodeBaseN w quantum dtbl (encodeBaseN w quantum tbl bytes) = some bytes := by
  have hbitslen : (bytes.flatMap (natToBits 8)).length = 8 * bytes.length :=
    flatMap_natToBits_length 8 bytes
  set bits := bytes.flatMap (natToBits 8) with hbits
  set p1 := (w - bits.length % w) % w with hp1
  set padded := bits ++ List.replicate p1 false with hpadded
  set digitChars := (chunks w padded).map (fun c => tbl (bitsToNat c)) with hdc
  set p2 := (quantum - digitChars.length % quantum) % quantum with hp2
  have h_enc : encodeBaseN w quantum tbl bytes =
      digitChars ++ List.replicate p2 61 := rfl
  have hpaddedlen : padded.length = bits.length + p1 := by
    rw [hpadded, List.length_append, List.length_replicate]
  have hdvdw : w ∣ padded.length := by
    apply Nat.dvd_of_mod_eq_zero
    rw [hpaddedlen, hp1]
    exact pad_mod_zero bits.length w hw
  have hchunklen : ∀ c ∈ chunks w padded, c.length = w :=
    chunks_length_mem w hw padded.length padded (Nat.le_refl _) hdvdw
  have hdigitlt : ∀ c ∈ chunks w padded, bitsToNat c < 2 ^ w := by
    intro c hc
    have := bitsToNat_lt c
    rw [hchunklen c hc] at this
    exact this
  -- decode-side facts
  have hlenq : (digitChars ++ List.replicate p2 61).length % quantum = 0 := by
    rw [List.length_append, List.length_replicate, hp2]
    exact pad_mod_zero digitChars.length quantum hq
  have hdcne : ∀ x ∈ digitChars, (decide (x ≠ 61)) = true := by
    intro x hx
    rw [hdc] at hx
    rcases List.mem_map.mp hx with ⟨c, hc, hcx⟩
    simp only [decide_eq_true_eq]
    rw [← hcx]
    exact hne _ (hdigitlt c hc)
  have hrep61 : ∀ x ∈ List.replicate p2 (61 : Nat), (decide (x ≠ 61)) = false := by
    intro x hx
    rw [List.eq_of_mem_replicate hx]
    simp
  have hsplit := takeWhile_append_all (fun c => decide (c ≠ 61)) digitChars
    (List.replicate p2 61) hdcne hrep61
  have hall : ((digitChars ++ List.replicate p2 61).dropWhile
      (fun c => decide (c ≠ 61))).all (fun c => decide (c = 61)) = true := by
    rw [hsplit.2]
    apply List.all_eq_true.mpr
    intro x hx
    rw [List.eq_of_mem_replicate hx]
    simp
  have hmapopt : mapOpt dtbl digitChars =
      some ((chunks w padded).map bitsToNat) := by
    rw [hdc, show ((chunks w padded).map fun c => tbl (bitsToNat c)) =
      ((chunks w padded).map bitsToNat).map tbl by rw [List.map_map]; rfl]
    apply mapOpt_map_inverse
    intro d hd
    rcases List.mem_map.mp hd with ⟨c, hc, hcd⟩
    rw [← hcd]
    exact hinv _ (hdigitlt c hc)
  have hflat : ((chunks w padded).map bitsToNat).flatMap (natToBits w) = padded := by
    rw [List.flatMap_map]
    have hcongr : (chunks w padded).flatMap (fun x => natToBits w (bitsToNat x)) =
        (chunks w padded).flatMap (fun c => c) := by
      apply List.flatMap_congr
      intro c hc
      exact natToBits_bitsToNat w c (hchunklen c hc)
    rw [hcongr, flatMap_self_eq_flatten, chunks_flatten w hw]
  have hrecover : ((chunks 8 padded).filter (fun c => c.length = 8)).map
      bitsToNat = bytes := by
    have h8dvd : 8 ∣ bits.length := by rw [hbitslen]; exact Dvd.intro _ rfl
    have hp1lt : (List.replicate p1 (false : Bool)).length < 8 := by
      rw [List.length_replicate, hp1]
      have := pad_len_lt bits.length w hw
      omega
    rw [hpadded, chunks_filter_full 8 (by omega) bits.length bits
      (List.replicate p1 false) (Nat.le_refl _) h8dvd hp1lt]
    rw [hbits, chunks_flatMap 8 (by omega) (natToBits 8) (natToBits_length 8) bytes]
    rw [List.map_map]
    apply map_id_of_mem
    intro a ha
    exact bitsToNat_natToBits 8 a (hB a ha)
  -- assemble
  rw [h_enc]
  unfold decodeBaseN
  rw [if_neg (by rw [hlenq]; simp)]
  rw [if_neg (by rw [hall]; simp)]
  rw [hsplit.1, hmapopt]
  simp only [Option.map_some']
  rw [hflat, hrecover]

/-! ## Lemmas: the concrete base32 / base64 instances -/

theorem b32_tbl_inv : ∀ d, d < 2 ^ 5 → b32digitTbl (b32charTbl d) = some d := by
  decide

theorem b32_tbl_ne : ∀ d, d < 2 ^ 5 → b32charTbl d ≠ 61 := by
  decide

theorem b64_tbl_inv : ∀ d, d < 2 ^ 6 → b64digitTbl (b64charTbl d) = some d := by
  decide

theorem b64_tbl_ne : ∀ d, d < 2 ^ 6 → b64charTbl d ≠ 61 := by
  decide

theorem b32decode_b32encode (bytes : List Nat) (hB : ∀ x ∈ bytes, x < 256) :
    b32decode (b32encode bytes) = some bytes :=
  decodeBaseN_encodeBaseN 5 8 (by omega) (by omega) (by omega)
    b32charTbl b32digitTbl b32_tbl_inv b32_tbl_ne bytes hB

theorem b64decode_b64encode (bytes : List Nat) (hB : ∀ x ∈ bytes, x < 256) :
    decodeBaseN 6 4 b64digitTbl (b64encode bytes) = some bytes :=
  decodeBaseN_encodeBaseN 6 4 (by omega) (by omega) (by omega)
    b64charTbl b64digitTbl b64_tbl_inv b64_tbl_ne bytes hB

theorem mem_encodeBaseN (w quantum : Nat) (hw : 0 < w) (tbl : Nat → Nat)
    (bytes : List Nat) :
    ∀ x ∈ encodeBaseN w quantum tbl bytes,
      (∃ d, d < 2 ^ w ∧ x = tbl d) ∨ x = 61 := by
  intro x hx
  unfold encodeBaseN at hx
  rcases List.mem_append.mp hx with h1 | h2
  · rcases List.mem_map.mp h1 with ⟨c, hc, hcx⟩
    set bits := bytes.flatMap (natToBits 8) with hbits
    set padded := bits ++ List.replicate ((w - bits.length % w) % w) false
      with hpadded
    have hdvdw : w ∣ padded.length := by
      apply Nat.dvd_of_mod_eq_zero
      rw [hpadded, List.length_append, List.length_replicate]
      exact pad_mod_zero bits.length w hw
    have hclen : c.length = w :=
      chunks_length_mem w hw padded.length padded (Nat.le_refl _) hdvdw c hc
    left
    refine ⟨bitsToNat c, ?_, hcx.symm⟩
    have := bitsToNat_lt c
    rw [hclen] at this
    exact this
  · right
    exact List.eq_of_mem_replicate h2

theorem chunks_count (k : Nat) (hk : 0 < k) :
    ∀ (n : Nat) (l : List α), l.length ≤ n → k ∣ l.length →
      (chunks k l).length = l.length / k := by
  intro n
  induction n with
  | zero =>
    intro l h _
    have : l = [] := List.eq_nil_of_length_eq_zero (Nat.le_zero.mp h)
    subst this
    simp [chunks_nil]
  | succ m ih =>
    intro l h hdvd
    cases l with
    | nil => simp [chunks_nil]
    | cons a t =>
      have hlk : k ≤ (a :: t).length := le_length_of_dvd_of_ne_nil hdvd (by simp)
      rw [chunks_cons k hk (a :: t) (by simp), List.length_cons]
      have hdrop : ((a :: t).drop k).length = (a :: t).length - k :=
        List.length_drop _ _
      have hrec : (chunks k ((a :: t).drop k)).length = ((a :: t).drop k).length / k := by
        refine ih _ ?_ ?_
        · simp only [List.length_drop, List.length_cons] at h ⊢
          omega
        · rw [hdrop]
          exact Nat.dvd_sub' hdvd (Nat.dvd_refl k)
      rw [hrec, hdrop]
      rcases hdvd with ⟨c, hc⟩
      rcases c with _ | c2
      · rw [Nat.mul_zero] at hc
        simp at hc
      · rw [hc]
        have h1 : k * (c2 + 1) - k = k * c2 := by
          rw [Nat.mul_succ]
          omega
        rw [h1, Nat.mul_div_cancel_left _ hk, Nat.mul_div_cancel_left _ hk]

theorem b32encode_structure (payload : List Nat) (h : payload.length = 35) :
    b32encode payload =
      (chunks 5 (payload.flatMap (natToBits 8))).map
        (fun c => b32charTbl (bitsToNat c)) ∧
    (b32encode payload).length = 56 := by
  have hbl : (payload.flatMap (natToBits 8)).length = 280 := by
    rw [flatMap_natToBits_length, h]
  have hpad0 : (5 - (payload.flatMap (natToBits 8)).length % 5) % 5 = 0 := by
    rw [hbl]
  have hcnt : (chunks 5 (payload.flatMap (natToBits 8))).length = 56 := by
    have := chunks_count 5 (by omega) (payload.flatMap (natToBits 8)).length
      (payload.flatMap (natToBits 8)) (Nat.le_refl _) (by rw [hbl]; omega)
    rw [this, hbl]
  have hmain : b32encode payload =
      (chunks 5 (payload.flatMap (natToBits 8))).map
        (fun c => b32charTbl (bitsToNat c)) := by
    simp only [b32encode, encodeBaseN]
    rw [hpad0]
    simp only [List.replicate_zero, List.append_nil]
    rw [List.length_map, hcnt]
    simp
  refine ⟨hmain, ?_⟩
  rw [hmain, List.length_map, hcnt]

theorem filter_joinNl (p : Nat → Bool) (h10 : p 10 = false) :
    ∀ parts : List (List Nat),
      (∀ part ∈ parts, ∀ x ∈ part, p x = true) →
      (joinNl parts).filter p = parts.flatten := by
  intro parts
  induction parts with
  | nil => intro _; rfl
  | cons a rest ih =>
    intro h
    cases rest with
    | nil =>
      simp only [joinNl, List.flatten_cons, List.flatten_nil, List.append_nil]
      exact List.filter_eq_self.mpr (h a (List.mem_cons_self a []))
    | cons bb rest2 =>
      have hjoin : joinNl (a :: bb :: rest2) = a ++ 10 :: joinNl (bb :: rest2) :=
        rfl
      rw [hjoin, List.filter_append, List.filter_cons]
      simp only [h10, if_false]
      rw [List.filter_eq_self.mpr (h a (List.mem_cons_self a _)),
        ih (fun part hp => h part (List.mem_cons_of_mem a hp)),
        List.flatten_cons]
      simp

/-! ## Lemmas: address codec -/

theorem b32_upper_lower : ∀ d, d < 32 →
    upperByte (lowerByte (b32charTbl d)) = b32charTbl d := by
  decide

theorem b32_lower_pattern : ∀ d, d < 32 →
    ((97 ≤ lowerByte (b32charTbl d) && lowerByte (b32charTbl d) ≤ 122) ||
     (50 ≤ lowerByte (b32charTbl d) && lowerByte (b32charTbl d) ≤ 55)) = true := by
  decide

theorem b32_lower_ne46 : ∀ d, d < 32 → lowerByte (b32charTbl d) ≠ 46 := by
  decide

theorem dotOnion_lower : dotOnion.map lowerByte = dotOnion := by
  decide

theorem address_decode_aux (sha3 : List Nat → List Nat)
    (key cksum : List Nat)
    (hklen : key.length = 32) (hkB : ∀ x ∈ key, x < 256)
    (hclen : cksum.length = 2) (hcB : ∀ x ∈ cksum, x < 256)
    (hck : cksum = (sha3 (CHECKSUM_CONSTANT ++ key ++ [3])).take 2)
    (withSuffix : Bool) :
    identityKeyFromAddress sha3
      ((if withSuffix then b32encode ((key ++ cksum) ++ [3]) ++ dotOnion
        else b32encode ((key ++ cksum) ++ [3])).map lowerByte) = .ok key := by
  have hplen : ((key ++ cksum) ++ [3]).length = 35 := by
    simp [hklen, hclen]
  have hpB : ∀ x ∈ (key ++ cksum) ++ [3], x < 256 := by
    intro x hx
    rcases List.mem_append.mp hx with h1 | h2
    · rcases List.mem_append.mp h1 with ha | hb
      exacts [hkB x ha, hcB x hb]
    · simp at h2
      omega
  obtain ⟨hstruct, hlen56⟩ := b32encode_structure _ hplen
  have hbl : (((key ++ cksum) ++ [3]).flatMap (natToBits 8)).length = 280 := by
    rw [flatMap_natToBits_length, hplen]
  have hmem : ∀ x ∈ b32encode ((key ++ cksum) ++ [3]),
      ∃ d, d < 32 ∧ x = b32charTbl d := by
    intro x hx
    rw [hstruct] at hx
    rcases List.mem_map.mp hx with ⟨c, hc, hcx⟩
    have hc5 : c.length = 5 :=
      chunks_length_mem 5 (by omega) _ _ (Nat.le_refl _) (by rw [hbl]; omega) c hc
    refine ⟨bitsToNat c, ?_, hcx.symm⟩
    have := bitsToNat_lt c
    rw [hc5] at this
    exact this
  set enc := b32encode ((key ++ cksum) ++ [3]) with hencdef
  set A := enc.map lowerByte with hAdef
  have hAlen : A.length = 56 := by rw [hAdef, List.length_map, hlen56]
  have hAmem : ∀ x ∈ A, ∃ d, d < 32 ∧ x = lowerByte (b32charTbl d) := by
    intro x hx
    rw [hAdef] at hx
    rcases List.mem_map.mp hx with ⟨y, hy, hyx⟩
    rcases hmem y hy with ⟨d, hd, rfl⟩
    exact ⟨d, hd, hyx.symm⟩
  have hApat : isHsV3AddressPattern A = true := by
    unfold isHsV3AddressPattern
    rw [hAlen]
    simp only [decide_True, Bool.true_and]
    apply List.all_eq_true.mpr
    intro x hx
    rcases hAmem x hx with ⟨d, hd, rfl⟩
    exact b32_lower_pattern d hd
  have hup : A.map upperByte = enc := by
    rw [hAdef, List.map_map]
    apply map_id_of_mem
    intro y hy
    rcases hmem y hy with ⟨d, hd, rfl⟩
    exact b32_upper_lower d hd
  have hcore : ∀ addr0 : List Nat, removeSuffix dotOnion addr0 = A →
      identityKeyFromAddress sha3 addr0 = .ok key := by
    intro addr0 hrs
    simp only [identityKeyFromAddress]
    rw [hrs, if_neg (by rw [hApat]; simp), hup, hencdef,
      b32decode_b32encode _ hpB]
    have h1 : ((key ++ cksum) ++ [3]).take 32 = key := by
      rw [List.take_append_of_le_length (by rw [List.length_append, hklen, hclen]; omega),
        ← hklen, List.take_left]
    have h2 : (((key ++ cksum) ++ [3]).drop 32).take 2 = cksum := by
      rw [List.drop_append_of_le_length (by rw [List.length_append, hklen, hclen]; omega),
        ← hklen, List.drop_left, ← hclen, List.take_append_of_le_length (Nat.le_refl _),
        List.take_length]
    have h3 : (((key ++ cksum) ++ [3]).drop 34).take 1 = [3] := by
      have h34 : (key ++ cksum).length = 34 := by
        rw [List.length_append, hklen, hclen]
      rw [← h34, List.drop_left]
      rfl
    simp only [h1, h2, h3]
    rw [if_neg (by rw [hck]; simp)]
  cases withSuffix with
  | false =>
    simp only [Bool.false_eq_true, if_false]
    apply hcore
    unfold removeSuffix
    rw [if_neg]
    intro hsuf
    rw [List.isSuffixOf_iff_suffix] at hsuf
    have h46 : (46 : Nat) ∈ A := hsuf.subset (by simp [dotOnion])
    rcases hAmem 46 h46 with ⟨d, hd, hde⟩
    exact b32_lower_ne46 d hd hde.symm
  | true =>
    simp only [if_true]
    rw [List.map_append, dotOnion_lower]
    apply hcore
    unfold removeSuffix
    rw [if_pos (by rw [List.isSuffixOf_iff_suffix]; exact List.suffix_append A dotOnion)]
    rw [List.length_append, show dotOnion.length = 6 from rfl,
      Nat.add_sub_cancel, List.take_left]

/-! ## Lemmas: clients dict (C8) -/

theorem dictInsert_keys {β : Type} (k : String) (v : β)
    (d : List (String × β)) :
    (dictInsert k v d).map Prod.fst =
      if k ∈ d.map Prod.fst then d.map Prod.fst else d.map Prod.fst ++ [k] := by
  induction d with
  | nil => simp [dictInsert]
  | cons p rest ih =>
    obtain ⟨k0, v0⟩ := p
    by_cases hk : k0 = k
    · subst hk
      simp [dictInsert]
    · simp only [dictInsert, if_neg hk, List.map_cons, ih]
      have hne : ¬ (k = k0) := fun hcon => hk hcon.symm
      by_cases hmem : k ∈ rest.map Prod.fst
      · simp [hmem, hne]
      · simp [hmem, hne]

theorem dictInsert_nodup_keys {β : Type} (k : String) (v : β)
    (d : List (String × β)) (h : (d.map Prod.fst).Nodup) :
    ((dictInsert k v d).map Prod.fst).Nodup := by
  rw [dictInsert_keys]
  by_cases hmem : k ∈ d.map Prod.fst
  · simp [hmem, h]
  · simp only [hmem, if_false]
    rw [List.nodup_append]
    refine ⟨h, List.nodup_singleton k, ?_⟩
    intro x hx hx1
    simp only [List.mem_singleton] at hx1
    subst hx1
    exact hmem hx

theorem dictInsert_forall {β : Type} (P : String × β → Prop) (k : String)
    (v : β) (d : List (String × β)) (hd : ∀ p ∈ d, P p) (hkv : P (k, v)) :
    ∀ p ∈ dictInsert k v d, P p := by
  induction d with
  | nil =>
    intro p hp
    simp only [dictInsert, List.mem_singleton] at hp
    subst hp
    exact hkv
  | cons q rest ih =>
    obtain ⟨k0, v0⟩ := q
    intro p hp
    simp only [dictInsert] at hp
    by_cases hk : k0 = k
    · subst hk
      rw [if_pos rfl] at hp
      rcases List.mem_cons.mp hp with h1 | h2
      · subst h1; exact hkv
      · exact hd p (List.mem_cons_of_mem _ h2)
    · rw [if_neg hk] at hp
      rcases List.mem_cons.mp hp with h1 | h2
      · subst h1; exact hd (k0, v0) (List.mem_cons_self _ _)
      · exact ih (fun q hq => hd q (List.mem_cons_of_mem _ hq)) p h2

theorem parseOuterClientsGo_inv (values : List String)
    (acc res : List (String × AuthorizedClient))
    (hok : parseOuterClientsGo values acc = .ok res)
    (hacc : (acc.map Prod.fst).Nodup ∧ ∀ p ∈ acc, p.2.id = p.1) :
    (res.map Prod.fst).Nodup ∧ ∀ p ∈ res, p.2.id = p.1 := by
  induction values generalizing acc with
  | nil =>
    simp only [parseOuterClientsGo] at hok
    cases hok
    exact hacc
  | cons v rest ih =>
    simp only [parseOuterClientsGo] at hok
    by_cases hlen : (pySplit v).length < 3
    · rw [if_pos hlen] at hok
      cases hok
    · rw [if_neg hlen] at hok
      refine ih _ hok ⟨?_, ?_⟩
      · exact dictInsert_nodup_keys _ _ _ hacc.1
      · exact dictInsert_forall _ _ _ _ hacc.2 rfl

/-! ## Lemmas: required-field validation (C7) -/

theorem lookupCount_pos (entries : EntryMap) (hpos : ∀ p ∈ entries, 1 ≤ p.2)
    (kw : String) (n : Nat) (h : lookupCount entries kw = some n) : 1 ≤ n := by
  unfold lookupCount at h
  cases hf : List.find? (fun e => e.1 = kw) entries with
  | none => rw [hf] at h; simp at h
  | some p =>
    rw [hf] at h
    simp only [Option.map_some', Option.some_inj] at h
    have hmem := List.mem_of_find?_eq_some hf
    have := hpos p hmem
    omega

theorem checkRequiredFields_ok_iff (entries : EntryMap)
    (hpos : ∀ p ∈ entries, 1 ≤ p.2) (kws : List String) :
    checkRequiredFields kws entries = .ok () ↔
      ∀ kw ∈ kws, lookupCount entries kw = some 1 := by
  induction kws with
  | nil => simp [checkRequiredFields]
  | cons kw rest ih =>
    simp only [checkRequiredFields]
    cases hl : lookupCount entries kw with
    | none => simp [List.forall_mem_cons, hl]
    | some n =>
      have hn1 : 1 ≤ n := lookupCount_pos entries hpos kw n hl
      by_cases hgt : n > 1
      · have hne : ¬ (n = 1) := by omega
        simp [hgt, List.forall_mem_cons, hl, hne]
      · have hn : n = 1 := by omega
        subst hn
        simp [hgt, List.forall_mem_cons, hl, ih]

/-! ## C1 -/

/-- C1: the padding computed by `OuterLayer._encrypt` is
`len(content) % 10000` NUL bytes, not padding up to the next multiple of
10000: for the 3-byte layer serialization `b'abc'` the plaintext submitted
to layer encryption has 6 bytes, which is not a multiple of 10000; in
general the submitted length is `len + len % 10000`.  This refutes the
claim (and the code's own comment, which states the spec-mandated
pad-to-multiple policy). -/
theorem c1_outer_padding_not_multiple :
    (outerEncryptPlaintext [97, 98, 99]).length = 6 ∧
    ¬ (10000 ∣ (outerEncryptPlaintext [97, 98, 99]).length) ∧
    (∀ content : List Nat,
      (outerEncryptPlaintext content).length =
        content.length + content.length % 10000) := by
  refine ⟨rfl, ?_, ?_⟩
  · have h6 : (outerEncryptPlaintext [97, 98, 99]).length = 6 := rfl
    rw [h6]
    omega
  · intro content
    simp [outerEncryptPlaintext]

/-! ## C7 -/

/-- C7: constructing a `HiddenServiceDescriptorV3` with `validate=True`
passes its structural validation exactly when every one of the six
required fields occurs exactly once in the tokenized entries, the first
keyword is `hs-descriptor` and the last keyword is `signature`; otherwise
it raises a `ValueError`.  `entries` is the keyword multimap of the
external tokenizer (keywords in first-occurrence order with their
occurrence counts, every count positive). -/
theorem c7_validate_structure_iff (entries : EntryMap)
    (hpos : ∀ p ∈ entries, 1 ≤ p.2) :
    validateV3Structure entries = .ok () ↔
      ((∀ kw ∈ REQUIRED_V3_FIELDS, lookupCount entries kw = some 1) ∧
       (entries.map Prod.fst).head? = some "hs-descriptor" ∧
       (entries.map Prod.fst).getLast? = some "signature") := by
  unfold validateV3Structure
  cases hc : checkRequiredFields REQUIRED_V3_FIELDS entries with
  | error e =>
    have hno : ¬ ∀ kw ∈ REQUIRED_V3_FIELDS, lookupCount entries kw = some 1 := by
      rw [← checkRequiredFields_ok_iff entries hpos]
      rw [hc]
      simp
    constructor
    · intro h
      exact absurd h (by simp [Bind.bind, Except.bind])
    · intro h
      exact absurd h.1 hno
  | ok u =>
    cases u
    have hyes : ∀ kw ∈ REQUIRED_V3_FIELDS, lookupCount entries kw = some 1 :=
      (checkRequiredFields_ok_iff entries hpos REQUIRED_V3_FIELDS).mp hc
    constructor
    · intro h
      simp only [Bind.bind, Except.bind] at h
      by_cases hc1 : (entries.map Prod.fst).head? ≠ some "hs-descriptor"
      · rw [if_pos hc1] at h
        cases h
      · rw [if_neg hc1] at h
        by_cases hc2 : (entries.map Prod.fst).getLast? ≠ some "signature"
        · rw [if_pos hc2] at h
          cases h
        · exact ⟨hyes, not_not.mp hc1, not_not.mp hc2⟩
    · rintro ⟨_, h1, h2⟩
      simp only [Bind.bind, Except.bind]
      rw [if_neg (not_not_intro h1), if_neg (not_not_intro h2)]

/-- C7 witness: the validation characterization instantiated at a concrete
entry map holding exactly the six required fields once each, in order. -/
theorem c7_validate_structure_iff_witness :
    validateV3Structure
      [("hs-descriptor", 1), ("descriptor-lifetime", 1),
       ("descriptor-signing-key-cert", 1), ("revision-counter", 1),
       ("superencrypted", 1), ("signature", 1)] = .ok () ↔
      ((∀ kw ∈ REQUIRED_V3_FIELDS, lookupCount
        [("hs-descriptor", 1), ("descriptor-lifetime", 1),
         ("descriptor-signing-key-cert", 1), ("revision-counter", 1),
         ("superencrypted", 1), ("signature", 1)] kw = some 1) ∧
       (([("hs-descriptor", 1), ("descriptor-lifetime", 1),
          ("descriptor-signing-key-cert", 1), ("revision-counter", 1),
          ("superencrypted", 1), ("signature", 1)] :
            EntryMap).map Prod.fst).head? = some "hs-descriptor" ∧
       (([("hs-descriptor", 1), ("descriptor-lifetime", 1),
          ("descriptor-signing-key-cert", 1), ("revision-counter", 1),
          ("superencrypted", 1), ("signature", 1)] :
            EntryMap).map Prod.fst).getLast? = some "signature") :=
  c7_validate_structure_iff _ (by decide)

/-! ## C8 -/

/-- C8: whatever `auth-client` line values the outer-layer plaintext
carries, when `_parse_v3_outer_clients` succeeds the resulting clients
dict never holds two entries with the same id (the keys are pairwise
distinct), and every stored `AuthorizedClient`'s id equals its key -
repeated client ids overwrite rather than duplicate. -/
theorem c8_outer_clients_unique (values : List String)
    (clients : List (String × AuthorizedClient))
    (hok : parseV3OuterClients values = .ok clients) :
    (clients.map Prod.fst).Nodup ∧ ∀ p ∈ clients, p.2.id = p.1 :=
  parseOuterClientsGo_inv values [] clients hok ⟨List.nodup_nil, by simp⟩

/-- C8 witness: a concrete run with a repeated client id: the repeated id
`a` is overwritten, and the resulting keys are pairwise distinct. -/
theorem c8_outer_clients_unique_witness :
    (([("a", AuthorizedClient.mk "a" "d" "e"),
       ("f", AuthorizedClient.mk "f" "g" "h")].map Prod.fst).Nodup ∧
     ∀ p ∈ [("a", AuthorizedClient.mk "a" "d" "e"),
       ("f", AuthorizedClient.mk "f" "g" "h")], p.2.id = p.1) :=
  c8_outer_clients_unique ["a b c", "a d e", "f g h"] _ (by rfl)

/-! ## C9 -/

/-- C9: once the inner layer has been decrypted and cached,
`HiddenServiceDescriptorV3.decrypt` returns the cached `InnerLayer` for
every subsequent call, with any onion address whatsoever: no address
validation, key derivation, or decryption is performed (the result does
not depend on the arguments at all) and the state is unchanged. -/
theorem c9_decrypt_returns_cache {OL IL : Type}
    (identityKeyFromAddr : List Nat → Except PyErr (List Nat))
    (subcredentialOf : List Nat → List Nat → List Nat)
    (outerDecrypt : List Nat → Nat → List Nat → List Nat → Except PyErr OL)
    (innerDecrypt : OL → Nat → List Nat → List Nat → Except PyErr IL)
    (s : DescriptorV3State IL) (il : IL) (onionAddress : List Nat)
    (hcache : s.innerLayer = some il) :
    descriptorV3Decrypt identityKeyFromAddr subcredentialOf outerDecrypt
      innerDecrypt s onionAddress = .ok (il, s) := by
  unfold descriptorV3Decrypt
  rw [hcache]

/-- C9 witness: concrete cached state; the collaborators all fail on any
input, and the address is garbage, yet decrypt returns the cache. -/
theorem c9_decrypt_returns_cache_witness :
    @descriptorV3Decrypt Unit Unit
      (fun _ => .error ⟨.valueError, .badAddressPattern⟩)
      (fun _ _ => [])
      (fun _ _ _ _ => .error ⟨.valueError, .macMismatch⟩)
      (fun _ _ _ _ => .error ⟨.valueError, .macMismatch⟩)
      ⟨none, [], 0, some ()⟩ [99, 99, 99] = .ok ((), ⟨none, [], 0, some ()⟩) :=
  c9_decrypt_returns_cache _ _ _ _ _ _ _ rfl

/-! ## C10 -/

/-- C10: `IntroductionPointV3.create_for_address` ignores its
`expiration`, `onion_key`, `enc_key`, `auth_key` and `signing_key`
arguments: with the address, port and random draws fixed, any two
argument choices give identical results, equal to the call with all five
as `None`; and the constructed introduction point is built from the
freshly generated keys of the random draws. -/
theorem c10_create_for_address_ignores_args
    (isIPv4 isIPv6 : String → Bool) (address : String) (port : Nat)
    (e₁ e₂ : Option Nat) (o₁ o₂ c₁ c₂ a₁ a₂ s₁ s₂ : Option PrivKeyRep)
    (r : CreateRandomness) :
    (createForAddress isIPv4 isIPv6 address port e₁ o₁ c₁ a₁ s₁ r =
      createForAddress isIPv4 isIPv6 address port e₂ o₂ c₂ a₂ s₂ r) ∧
    (createForAddress isIPv4 isIPv6 address port e₁ o₁ c₁ a₁ s₁ r =
      createForAddress isIPv4 isIPv6 address port none none none none none r) ∧
    (∀ links,
      (createForLinkSpecifiers links none none none none none r).onionKeyRaw =
        some (b64encode (pubkeyBytes r.onionKeyGen)) ∧
      (createForLinkSpecifiers links none none none none none r).encKeyRaw =
        some (b64encode (pubkeyBytes r.encKeyGen)) ∧
      (createForLinkSpecifiers links none none none none none r).authKeyCert.key =
        pubkeyBytes r.authKeyGen ∧
      (createForLinkSpecifiers links none none none none
        none r).authKeyCert.signingKeyPub = pubkeyBytes r.signingKeyGen ∧
      (createForLinkSpecifiers links none none none none
        none r).authKeyCert.expiration = r.defaultExpiration) :=
  ⟨rfl, rfl, fun _ => ⟨rfl, rfl, rfl, rfl, rfl⟩⟩

/-! ## C2 -/

/-- C2: for every valid 32-byte identity key, decoding the address encoded
from it returns exactly the key: the base32 address built from
`key + SHA3-256 checksum(2) + version byte 3` passes the address pattern,
base32-decodes, passes the checksum comparison, and yields the key - with
or without the `.onion` suffix.  SHA3-256 enters as a function parameter
(32-byte digests of bytes). -/
theorem c2_identity_key_address_roundtrip (sha3 : List Nat → List Nat)
    (hs_len : ∀ m, (sha3 m).length = 32)
    (hs_B : ∀ m, ∀ x ∈ sha3 m, x < 256)
    (key : List Nat) (hklen : key.length = 32) (hkB : ∀ x ∈ key, x < 256)
    (withSuffix : Bool) :
    identityKeyFromAddress sha3 (addressFromIdentityKey sha3 key withSuffix) =
      .ok key := by
  have hclen : ((sha3 (CHECKSUM_CONSTANT ++ key ++ [3])).take 2).length = 2 := by
    rw [List.length_take, hs_len]
    decide
  have hcB : ∀ x ∈ (sha3 (CHECKSUM_CONSTANT ++ key ++ [3])).take 2, x < 256 :=
    fun x hx => hs_B _ x (List.mem_of_mem_take hx)
  exact address_decode_aux sha3 key _ hklen hkB hclen hcB rfl withSuffix

/-- C2 witness: a concrete key (32 zero bytes) with a concrete hash
function round-trips through the address codec. -/
theorem c2_identity_key_address_roundtrip_witness :
    identityKeyFromAddress sha3zero
      (addressFromIdentityKey sha3zero (List.replicate 32 0) true) =
      .ok (List.replicate 32 0) :=
  c2_identity_key_address_roundtrip sha3zero
    (fun _ => by simp [sha3zero])
    (fun m x hx => by
      have hx0 : x ∈ List.replicate 32 (0 : Nat) := hx
      have := List.eq_of_mem_replicate hx0
      omega)
    (List.replicate 32 0) (by simp)
    (fun x hx => by
      have := List.eq_of_mem_replicate hx
      omega)
    true

/-! ## Lemmas: layer cipher (C3 / C4) -/

theorem ctrApply_length (a b : List Nat) :
    (ctrApply a b).length = min a.length b.length := by
  unfold ctrApply
  exact List.length_zipWith _ _ _

theorem ctrApply_bound (a b : List Nat) (ha : ∀ x ∈ a, x < 256)
    (hb : ∀ x ∈ b, x < 256) : ∀ x ∈ ctrApply a b, x < 256 := by
  induction a generalizing b with
  | nil => simp [ctrApply]
  | cons a0 t ih =>
    cases b with
    | nil => simp [ctrApply]
    | cons b0 u =>
      intro x hx
      simp only [ctrApply, List.zipWith_cons_cons] at hx
      rcases List.mem_cons.mp hx with h1 | h2
      · rw [h1]
        exact Nat.xor_lt_two_pow (n := 8) (ha a0 (List.mem_cons_self _ _))
          (hb b0 (List.mem_cons_self _ _))
      · exact ih u (fun y hy => ha y (List.mem_cons_of_mem _ hy))
          (fun y hy => hb y (List.mem_cons_of_mem _ hy)) x h2

theorem ctrApply_ctrApply (p s : List Nat) (h : s.length = p.length) :
    ctrApply (ctrApply p s) s = p := by
  induction p generalizing s with
  | nil =>
    cases s with
    | nil => rfl
    | cons b u => simp at h
  | cons a t ih =>
    cases s with
    | nil => simp at h
    | cons b u =>
      simp only [ctrApply, List.zipWith_cons_cons]
      rw [Nat.xor_cancel_right]
      simp only [List.length_cons] at h
      have := ih u (by omega)
      simp only [ctrApply] at this
      rw [this]

theorem b64char_alphabet : ∀ d, d < 64 → isB64Alphabet (b64charTbl d) = true := by
  decide

theorem nl_not_alphabet : isB64Alphabet 10 = false := by
  decide

theorem mem_b64encode_alphabet (payload : List Nat) :
    ∀ x ∈ b64encode payload, isB64Alphabet x = true := by
  intro x hx
  rcases mem_encodeBaseN 6 4 (by omega) b64charTbl payload x hx with ⟨d, hd, rfl⟩ | rfl
  · exact b64char_alphabet d hd
  · decide

theorem pyB64decode_joinNl (payload : List Nat) (hB : ∀ x ∈ payload, x < 256) :
    pyB64decode (joinNl (chunks 64 (b64encode payload))) = some payload := by
  unfold pyB64decode
  rw [filter_joinNl isB64Alphabet nl_not_alphabet (chunks 64 (b64encode payload))
    ?parts]
  case parts =>
    intro part hp x hxp
    apply mem_b64encode_alphabet
    rw [← chunks_flatten 64 (by omega) (b64encode payload)]
    exact List.mem_flatten.mpr ⟨part, hp, hxp⟩
  rw [chunks_flatten 64 (by omega)]
  exact b64decode_b64encode payload hB

/-! ## C3 -/

/-- C3: for every plaintext of bytes, every layer constant, every
(revision counter, subcredential, blinded key) triple and whatever
16-byte salt the encryption draws, `_decrypt_layer` of `_encrypt_layer`
returns the plaintext.  The SHAKE-256 KDF, the SHA3-256 MAC digest and
the AES-CTR keystream are function parameters constrained only by their
output lengths and bytehood (a CTR keystream is XORed in both
directions, which is all the round trip needs). -/
theorem c3_layer_roundtrip
    (shake : List Nat → Nat → List Nat) (sha3 : List Nat → List Nat)
    (ks : List Nat → List Nat → Nat → List Nat)
    (salt plaintext constant subcredential blindedKey : List Nat)
    (revisionCounter : Nat)
    (hsalt : salt.length = 16) (hsaltB : ∀ x ∈ salt, x < 256)
    (hpB : ∀ x ∈ plaintext, x < 256)
    (hks_len : ∀ k iv n, (ks k iv n).length = n)
    (hks_B : ∀ k iv n, ∀ x ∈ ks k iv n, x < 256)
    (hs_len : ∀ m, (sha3 m).length = 32)
    (hs_B : ∀ m, ∀ x ∈ sha3 m, x < 256) :
    decryptLayer shake sha3 ks
      (encryptLayer shake sha3 ks salt plaintext constant revisionCounter
        subcredential blindedKey)
      constant revisionCounter subcredential blindedKey = .ok plaintext := by
  set km := layerKeys shake constant revisionCounter subcredential blindedKey salt
    with hkm
  set stream := ks km.1 km.2.1 plaintext.length with hstream
  have hstreamlen : stream.length = plaintext.length := hks_len _ _ _
  set ct := ctrApply plaintext stream with hct
  have hctlen : ct.length = plaintext.length := by
    rw [hct, ctrApply_length, hstreamlen]
    omega
  have hctB : ∀ x ∈ ct, x < 256 := by
    rw [hct]
    exact ctrApply_bound _ _ hpB (fun x hx => hks_B _ _ _ x hx)
  set mac := macFor sha3 km.2.2 salt ct with hmac
  have hmaclen : mac.length = 32 := hs_len _
  have hpayB : ∀ x ∈ (salt ++ ct) ++ mac, x < 256 := by
    intro x hx
    rcases List.mem_append.mp hx with h1 | h2
    · rcases List.mem_append.mp h1 with ha | hb
      exacts [hsaltB x ha, hctB x hb]
    · exact hs_B _ x h2
  have hpaylen : ((salt ++ ct) ++ mac).length = 48 + plaintext.length := by
    simp only [List.length_append, hsalt, hctlen, hmaclen]
    omega
  set encoded := b64encode ((salt ++ ct) ++ mac) with henc
  set J := joinNl (chunks 64 encoded) with hJ
  have hblock : encryptLayer shake sha3 ks salt plaintext constant
      revisionCounter subcredential blindedKey =
      (beginMessage ++ J) ++ endMessage := rfl
  rw [hblock]
  unfold decryptLayer
  have hpre : beginMessage.isPrefixOf ((beginMessage ++ J) ++ endMessage) = true := by
    rw [List.isPrefixOf_iff_prefix, List.append_assoc]
    exact List.prefix_append _ _
  have hsuf : endMessage.isSuffixOf ((beginMessage ++ J) ++ endMessage) = true := by
    rw [List.isSuffixOf_iff_suffix]
    exact List.suffix_append _ _
  rw [if_pos ⟨hpre, hsuf⟩]
  have hdrop24 : ((beginMessage ++ J) ++ endMessage).drop 24 = J ++ endMessage := by
    rw [List.append_assoc, show (24 : Nat) = beginMessage.length from rfl,
      List.drop_left]
  have hlen46 : ((beginMessage ++ J) ++ endMessage).length - 46 = J.length := by
    simp only [List.length_append]
    rw [show beginMessage.length = 24 from rfl, show endMessage.length = 22 from rfl]
    omega
  rw [hdrop24, hlen46, List.take_left, hJ, henc]
  simp only [pyB64decode_joinNl _ hpayB]
  -- the base64 layer is gone; now the byte-level decryption
  show decryptLayerBytes shake sha3 ks ((salt ++ ct) ++ mac) constant
    revisionCounter subcredential blindedKey = .ok plaintext
  unfold decryptLayerBytes
  rw [if_neg (by rw [hpaylen]; unfold SALT_LEN MAC_LEN; omega)]
  have htake16 : ((salt ++ ct) ++ mac).take SALT_LEN = salt := by
    rw [show SALT_LEN = 16 from rfl,
      List.take_append_of_le_length (by rw [List.length_append, hsalt]; omega),
      ← hsalt, List.take_left]
  have hdropct : (((salt ++ ct) ++ mac).drop SALT_LEN).take
      (((salt ++ ct) ++ mac).length - (SALT_LEN + MAC_LEN)) = ct := by
    rw [show SALT_LEN = 16 from rfl, List.append_assoc, ← hsalt, List.drop_left,
      hsalt]
    have hlen2 : (salt ++ (ct ++ mac)).length - (16 + MAC_LEN) = ct.length := by
      simp only [List.length_append, hsalt, hmaclen, MAC_LEN]
      omega
    rw [hlen2, List.take_left]
  have hdropmac : ((salt ++ ct) ++ mac).drop
      (((salt ++ ct) ++ mac).length - MAC_LEN) = mac := by
    rw [hpaylen, show MAC_LEN = 32 from rfl,
      show 48 + plaintext.length - 32 = 16 + plaintext.length by omega,
      show (16 : Nat) + plaintext.length = ((salt ++ ct)).length by
        rw [List.length_append, hsalt, hctlen],
      List.drop_left]
  rw [htake16, hdropct, hdropmac]
  rw [if_neg (by rw [hmac, hkm]; simp)]
  rw [hctlen]
  rw [show ks (layerKeys shake constant revisionCounter subcredential blindedKey
    salt).1 (layerKeys shake constant revisionCounter subcredential blindedKey
    salt).2.1 plaintext.length = stream from rfl]
  rw [hct, ctrApply_ctrApply plaintext stream hstreamlen]

/-- C3 witness: a concrete two-byte plaintext round-trips through the
layer codec with concrete primitive stand-ins and a concrete salt. -/
theorem c3_layer_roundtrip_witness :
    decryptLayer shakeZero sha3zero ksZero
      (encryptLayer shakeZero sha3zero ksZero (List.replicate 16 0)
        [104, 105] [] 7 [] []) [] 7 [] [] = .ok [104, 105] :=
  c3_layer_roundtrip shakeZero sha3zero ksZero (List.replicate 16 0)
    [104, 105] [] [] [] 7
    (by simp)
    (fun x hx => by
      have := List.eq_of_mem_replicate hx
      omega)
    (fun x hx => by
      rcases List.mem_cons.mp hx with h | h
      · omega
      · simp at h
        omega)
    (fun k iv n => by simp [ksZero])
    (fun k iv n x hx => by
      have hx0 : x ∈ List.replicate n (0 : Nat) := hx
      have := List.eq_of_mem_replicate hx0
      omega)
    (fun m => by simp [sha3zero])
    (fun m x hx => by
      have hx0 : x ∈ List.replicate 32 (0 : Nat) := hx
      have := List.eq_of_mem_replicate hx0
      omega)

/-! ## Lemmas and claim theorems: tamper detection (C4) -/

theorem beBytes_length (w n : Nat) : (beBytes w n).length = w := by
  induction w generalizing n with
  | zero => rfl
  | succ v ih => simp [beBytes, ih]

theorem macKey_length (shake : List Nat → Nat → List Nat)
    (hshake_len : ∀ m n, (shake m n).length = n)
    (constant : List Nat) (revisionCounter : Nat)
    (subcredential blindedKey salt : List Nat) :
    (layerKeys shake constant revisionCounter subcredential blindedKey
      salt).2.2.length = 32 := by
  simp [layerKeys, hshake_len, S_KEY_LEN, S_IV_LEN, MAC_LEN]

theorem macInput_drop48 (K s c : List Nat) (hK : K.length = 32) :
    (macInput K s c).drop 48 = s ++ c := by
  unfold macInput
  rw [List.append_assoc ((be64 K.length ++ K) ++ be64 s.length) s c]
  rw [show (48 : Nat) = ((be64 K.length ++ K) ++ be64 s.length).length by
    simp [be64, beBytes_length, hK]]
  exact List.drop_left _ _

theorem take_salt_ct (e : List Nat) (h48 : 48 ≤ e.length) :
    e.take SALT_LEN ++ (e.drop SALT_LEN).take (e.length - (SALT_LEN + MAC_LEN)) =
      e.take (e.length - MAC_LEN) := by
  rw [show SALT_LEN = 16 from rfl, show MAC_LEN = 32 from rfl, ← List.take_add]
  congr 1
  omega

theorem decryptLayerBytes_cases (shake : List Nat → Nat → List Nat)
    (sha3 : List Nat → List Nat) (ks : List Nat → List Nat → Nat → List Nat)
    (e constant : List Nat) (revisionCounter : Nat)
    (subcredential blindedKey : List Nat) :
    decryptLayerBytes shake sha3 ks e constant revisionCounter subcredential
      blindedKey =
    (if e.length < SALT_LEN + MAC_LEN then
      .error ⟨.valueError, .encryptedTooShort⟩
    else if e.drop (e.length - MAC_LEN) ≠
        macFor sha3 (layerKeys shake constant revisionCounter subcredential
          blindedKey (e.take SALT_LEN)).2.2 (e.take SALT_LEN)
          ((e.drop SALT_LEN).take (e.length - (SALT_LEN + MAC_LEN))) then
      .error ⟨.valueError, .macMismatch⟩
    else
      .ok (ctrApply ((e.drop SALT_LEN).take (e.length - (SALT_LEN + MAC_LEN)))
        (ks (layerKeys shake constant revisionCounter subcredential blindedKey
            (e.take SALT_LEN)).1
          (layerKeys shake constant revisionCounter subcredential blindedKey
            (e.take SALT_LEN)).2.1
          ((e.drop SALT_LEN).take (e.length - (SALT_LEN + MAC_LEN))).length))) :=
  rfl

/-- C4 (amended): `_decrypt_layer` never returns a plaintext whose stored
MAC differs from the recomputed MAC (conjunct 1); a block whose salt or
ciphertext was altered while keeping the stored MAC decrypts successfully
only if the alteration exhibits a SHA3-256 collision - two distinct MAC
inputs with the same digest (conjunct 2); otherwise the altered block
fails with the `Malformed mac` error (conjunct 3); and that failure is a
`ValueError`, the same exception class as the malformed-too-short
failure, not a distinct authentication error type (conjunct 4). -/
theorem c4_tamper_detection
    (shake : List Nat → Nat → List Nat) (sha3 : List Nat → List Nat)
    (ks : List Nat → List Nat → Nat → List Nat)
    (constant subcredential blindedKey : List Nat) (revisionCounter : Nat)
    (hshake_len : ∀ m n, (shake m n).length = n)
    (e e' : List Nat)
    (he : 48 ≤ e.length) (hlen : e'.length = e.length)
    (hmacEq : e'.drop (e'.length - 32) = e.drop (e.length - 32))
    (hbody : e'.take (e'.length - 32) ≠ e.take (e.length - 32)) :
    (∀ e0 pt, decryptLayerBytes shake sha3 ks e0 constant revisionCounter
        subcredential blindedKey = .ok pt →
      e0.drop (e0.length - MAC_LEN) =
        macFor sha3 (layerKeys shake constant revisionCounter subcredential
          blindedKey (e0.take SALT_LEN)).2.2 (e0.take SALT_LEN)
          ((e0.drop SALT_LEN).take (e0.length - (SALT_LEN + MAC_LEN)))) ∧
    ((∃ pt, decryptLayerBytes shake sha3 ks e constant revisionCounter
        subcredential blindedKey = .ok pt) →
     (∃ pt, decryptLayerBytes shake sha3 ks e' constant revisionCounter
        subcredential blindedKey = .ok pt) →
     ∃ m₁ m₂, m₁ ≠ m₂ ∧ sha3 m₁ = sha3 m₂) ∧
    ((∃ pt, decryptLayerBytes shake sha3 ks e' constant revisionCounter
        subcredential blindedKey = .ok pt) ∨
      decryptLayerBytes shake sha3 ks e' constant revisionCounter
        subcredential blindedKey = .error ⟨.valueError, .macMismatch⟩) ∧
    (PyErr.mk .valueError .macMismatch).kind =
      (PyErr.mk .valueError .encryptedTooShort).kind := by
  have hmacOk : ∀ e0 pt, decryptLayerBytes shake sha3 ks e0 constant
      revisionCounter subcredential blindedKey = .ok pt →
      e0.drop (e0.length - MAC_LEN) =
        macFor sha3 (layerKeys shake constant revisionCounter subcredential
          blindedKey (e0.take SALT_LEN)).2.2 (e0.take SALT_LEN)
          ((e0.drop SALT_LEN).take (e0.length - (SALT_LEN + MAC_LEN))) := by
    intro e0 pt h
    rw [decryptLayerBytes_cases] at h
    by_cases h1 : e0.length < SALT_LEN + MAC_LEN
    · rw [if_pos h1] at h
      cases h
    · rw [if_neg h1] at h
      by_cases h2 : e0.drop (e0.length - MAC_LEN) ≠
          macFor sha3 (layerKeys shake constant revisionCounter subcredential
            blindedKey (e0.take SALT_LEN)).2.2 (e0.take SALT_LEN)
            ((e0.drop SALT_LEN).take (e0.length - (SALT_LEN + MAC_LEN)))
      · rw [if_pos h2] at h
        cases h
      · exact not_not.mp h2
  refine ⟨hmacOk, ?_, ?_, rfl⟩
  · rintro ⟨pt, hpt⟩ ⟨pt', hpt'⟩
    have hm := hmacOk e pt hpt
    have hm' := hmacOk e' pt' hpt'
    refine ⟨macInput (layerKeys shake constant revisionCounter subcredential
        blindedKey (e'.take SALT_LEN)).2.2 (e'.take SALT_LEN)
        ((e'.drop SALT_LEN).take (e'.length - (SALT_LEN + MAC_LEN))),
      macInput (layerKeys shake constant revisionCounter subcredential
        blindedKey (e.take SALT_LEN)).2.2 (e.take SALT_LEN)
        ((e.drop SALT_LEN).take (e.length - (SALT_LEN + MAC_LEN))), ?_, ?_⟩
    · intro heq
      have hdrop := congrArg (List.drop 48) heq
      rw [macInput_drop48 _ _ _ (macKey_length shake hshake_len _ _ _ _ _),
        macInput_drop48 _ _ _ (macKey_length shake hshake_len _ _ _ _ _)]
        at hdrop
      rw [take_salt_ct e' (by omega), take_salt_ct e he] at hdrop
      rw [show MAC_LEN = 32 from rfl] at hdrop
      exact hbody hdrop
    · show sha3 _ = sha3 _
      have h1 : macFor sha3 (layerKeys shake constant revisionCounter
          subcredential blindedKey (e'.take SALT_LEN)).2.2 (e'.take SALT_LEN)
          ((e'.drop SALT_LEN).take (e'.length - (SALT_LEN + MAC_LEN))) =
          macFor sha3 (layerKeys shake constant revisionCounter subcredential
          blindedKey (e.take SALT_LEN)).2.2 (e.take SALT_LEN)
          ((e.drop SALT_LEN).take (e.length - (SALT_LEN + MAC_LEN))) := by
        rw [← hm, ← hm', show MAC_LEN = 32 from rfl, hmacEq]
      exact h1
  · rcases Classical.em (∃ pt, decryptLayerBytes shake sha3 ks e' constant
        revisionCounter subcredential blindedKey = .ok pt) with hyes | hno
    · exact Or.inl hyes
    · right
      rw [decryptLayerBytes_cases]
      rw [if_neg (by rw [show SALT_LEN + MAC_LEN = 48 from rfl]; omega)]
      by_cases hm : e'.drop (e'.length - MAC_LEN) ≠
          macFor sha3 (layerKeys shake constant revisionCounter subcredential
            blindedKey (e'.take SALT_LEN)).2.2 (e'.take SALT_LEN)
            ((e'.drop SALT_LEN).take (e'.length - (SALT_LEN + MAC_LEN)))
      · rw [if_pos hm]
      · exfalso
        apply hno
        refine ⟨ctrApply ((e'.drop SALT_LEN).take (e'.length - (SALT_LEN + MAC_LEN)))
          (ks (layerKeys shake constant revisionCounter subcredential blindedKey
              (e'.take SALT_LEN)).1
            (layerKeys shake constant revisionCounter subcredential blindedKey
              (e'.take SALT_LEN)).2.1
            ((e'.drop SALT_LEN).take (e'.length - (SALT_LEN + MAC_LEN))).length), ?_⟩
        rw [decryptLayerBytes_cases,
          if_neg (by rw [show SALT_LEN + MAC_LEN = 48 from rfl]; omega), if_neg hm]

/-- C4 witness: a concrete 48-byte block and a tampered variant (salt
bytes changed, MAC kept); all four conjuncts instantiated. -/
theorem c4_tamper_detection_witness :
    ((∀ e0 pt, decryptLayerBytes shakeZero sha3zero ksZero e0 [] 7 [] [] =
        .ok pt →
      e0.drop (e0.length - MAC_LEN) =
        macFor sha3zero (layerKeys shakeZero [] 7 [] []
          (e0.take SALT_LEN)).2.2 (e0.take SALT_LEN)
          ((e0.drop SALT_LEN).take (e0.length - (SALT_LEN + MAC_LEN)))) ∧
    ((∃ pt, decryptLayerBytes shakeZero sha3zero ksZero (List.replicate 48 1)
        [] 7 [] [] = .ok pt) →
     (∃ pt, decryptLayerBytes shakeZero sha3zero ksZero
        (List.replicate 16 2 ++ List.replicate 32 1) [] 7 [] [] = .ok pt) →
     ∃ m₁ m₂, m₁ ≠ m₂ ∧ sha3zero m₁ = sha3zero m₂) ∧
    ((∃ pt, decryptLayerBytes shakeZero sha3zero ksZero
        (List.replicate 16 2 ++ List.replicate 32 1) [] 7 [] [] = .ok pt) ∨
      decryptLayerBytes shakeZero sha3zero ksZero
        (List.replicate 16 2 ++ List.replicate 32 1) [] 7 [] [] =
        .error ⟨.valueError, .macMismatch⟩) ∧
    (PyErr.mk .valueError .macMismatch).kind =
      (PyErr.mk .valueError .encryptedTooShort).kind) :=
  c4_tamper_detection shakeZero sha3zero ksZero [] [] [] 7
    (fun m n => by simp [shakeZero])
    (List.replicate 48 1) (List.replicate 16 2 ++ List.replicate 32 1)
    (by simp) (by simp) (by decide) (by decide)

/-- C4 counterexample to the claim as stated: the MAC-mismatch failure is
not surfaced distinctly from generic malformed-input errors - on a
structurally valid block whose MAC does not verify, `_decrypt_layer`
raises the same exception class (`ValueError`) as it does on a malformed
too-short block; only the message site differs. -/
theorem c4_not_distinct_counterexample :
    errSite (decryptLayerBytes shakeZero sha3zero ksZero (List.replicate 48 1)
      [] 7 [] []) = some .macMismatch ∧
    errSite (decryptLayerBytes shakeZero sha3zero ksZero [1, 2, 3]
      [] 7 [] []) = some .encryptedTooShort ∧
    errKind (decryptLayerBytes shakeZero sha3zero ksZero (List.replicate 48 1)
      [] 7 [] []) =
      errKind (decryptLayerBytes shakeZero sha3zero ksZero [1, 2, 3]
        [] 7 [] []) := by
  decide

/-! ## Lemmas: bit sums and scalar clamping (C5) -/

theorem shiftRight_and_one (a i : Nat) : a >>> i &&& 1 = a / 2 ^ i % 2 := by
  rw [Nat.shiftRight_eq_div_pow, Nat.and_one_is_mod]

theorem sum_bits_of_lt (w : Nat) : ∀ a, a < 2 ^ w →
    (Finset.range w).sum (fun i => 2 ^ i * (a / 2 ^ i % 2)) = a := by
  induction w with
  | zero =>
    intro a h
    have : a = 0 := by simpa using h
    subst this
    simp
  | succ v ih =>
    intro a h
    rw [Finset.sum_range_succ']
    have hstep : ∀ i, 2 ^ (i + 1) * (a / 2 ^ (i + 1) % 2) =
        2 * (2 ^ i * (a / 2 / 2 ^ i % 2)) := by
      intro i
      rw [show (2 : Nat) ^ (i + 1) = 2 * 2 ^ i by ring, ← Nat.div_div_eq_div_mul]
      ring
    rw [Finset.sum_congr rfl (fun i _ => hstep i), ← Finset.mul_sum]
    rw [ih (a / 2) (by rw [pow_succ] at h; omega)]
    simp only [pow_zero, Nat.div_one, one_mul]
    omega

theorem bit_cons_lt8 (a : Nat) (t : List Nat) (i : Nat) (h : i < 8) :
    ed25519.bit (a :: t) i = a / 2 ^ i % 2 := by
  unfold ed25519.bit
  rw [Nat.div_eq_of_lt h, Nat.mod_eq_of_lt h, List.getD_cons_zero]
  exact shiftRight_and_one a i

theorem bit_cons_ge8 (a : Nat) (t : List Nat) (j : Nat) :
    ed25519.bit (a :: t) (8 + j) = ed25519.bit t j := by
  unfold ed25519.bit
  have h1 : (8 + j) / 8 = j / 8 + 1 := by omega
  have h2 : (8 + j) % 8 = j % 8 := by omega
  rw [h1, h2, List.getD_cons_succ]

theorem leNat_bits : ∀ (l : List Nat), (∀ x ∈ l, x < 256) →
    leNat l =
      (Finset.range (8 * l.length)).sum (fun i => 2 ^ i * ed25519.bit l i) := by
  intro l
  induction l with
  | nil => intro _; simp [leNat]
  | cons a t ih =>
    intro hB
    have ha : a < 256 := hB a (List.mem_cons_self _ _)
    have hlen8 : 8 * (a :: t).length = 8 + 8 * t.length := by
      simp only [List.length_cons]
      omega
    rw [hlen8, Finset.sum_range_add]
    have h1 : (Finset.range 8).sum (fun i => 2 ^ i * ed25519.bit (a :: t) i) =
        a := by
      rw [Finset.sum_congr rfl
        (fun i hi => by rw [bit_cons_lt8 a t i (Finset.mem_range.mp hi)])]
      exact sum_bits_of_lt 8 a ha
    have h2 : (Finset.range (8 * t.length)).sum
        (fun i => 2 ^ (8 + i) * ed25519.bit (a :: t) (8 + i)) =
        256 * (Finset.range (8 * t.length)).sum
          (fun i => 2 ^ i * ed25519.bit t i) := by
      rw [Finset.mul_sum]
      apply Finset.sum_congr rfl
      intro i _
      rw [bit_cons_ge8, pow_add]
      ring
    show a + 256 * leNat t = _
    rw [ih (fun x hx => hB x (List.mem_cons_of_mem _ hx))]
    omega

theorem sum_two_pow (w : Nat) :
    (Finset.range w).sum (fun i => 2 ^ i) = 2 ^ w - 1 := by
  induction w with
  | zero => simp
  | succ v ih =>
    rw [Finset.sum_range_succ, ih, pow_succ]
    have := Nat.one_le_two_pow (n := v)
    omega

theorem bit_le_one (l : List Nat) (i : Nat) : ed25519.bit l i ≤ 1 := by
  unfold ed25519.bit
  exact Nat.and_le_right

theorem sum_bits_lt (l : List Nat) (w : Nat) :
    (Finset.range w).sum (fun i => 2 ^ i * ed25519.bit l i) < 2 ^ w := by
  have h1 : ∀ i ∈ Finset.range w, 2 ^ i * ed25519.bit l i ≤ 2 ^ i := by
    intro i _
    calc 2 ^ i * ed25519.bit l i ≤ 2 ^ i * 1 :=
        Nat.mul_le_mul_left _ (bit_le_one l i)
      _ = 2 ^ i := Nat.mul_one _
  have h2 := Finset.sum_le_sum h1
  rw [sum_two_pow] at h2
  have := Nat.one_le_two_pow (n := w)
  omega

theorem blindedPubkeyMult_eq_clamped (nonce : List Nat)
    (hlen : nonce.length = 32) (hB : ∀ x ∈ nonce, x < 256) :
    blindedPubkeyMult nonce = clampedScalarSpec nonce := by
  have hle := leNat_bits nonce hB
  rw [hlen, show (8 : Nat) * 32 = 254 + 2 from rfl, Finset.sum_range_add] at hle
  have htail : (Finset.range 2).sum
      (fun i => 2 ^ (254 + i) * ed25519.bit nonce (254 + i)) =
      2 ^ 254 * (ed25519.bit nonce 254 + 2 * ed25519.bit nonce 255) := by
    rw [Finset.sum_range_succ, Finset.sum_range_succ, Finset.sum_range_zero]
    rw [show (254 : Nat) + 0 = 254 from rfl, show (254 : Nat) + 1 = 255 from rfl,
      show (2 : Nat) ^ 255 = 2 ^ 254 * 2 by rw [pow_succ]]
    ring
  rw [htail] at hle
  have hLlt : (Finset.range 254).sum (fun i => 2 ^ i * ed25519.bit nonce i) <
      2 ^ 254 := sum_bits_lt nonce 254
  have hmod : leNat nonce % 2 ^ 254 =
      (Finset.range 254).sum (fun i => 2 ^ i * ed25519.bit nonce i) := by
    rw [hle, Nat.add_mul_mod_self_left, Nat.mod_eq_of_lt hLlt]
  have hsplit : (Finset.range 254).sum (fun i => 2 ^ i * ed25519.bit nonce i) =
      (Finset.range 3).sum (fun i => 2 ^ i * ed25519.bit nonce i) +
      (Finset.range 251).sum
        (fun i => 2 ^ (3 + i) * ed25519.bit nonce (3 + i)) := by
    rw [show (254 : Nat) = 3 + 251 from rfl, Finset.sum_range_add]
  have hS0lt : (Finset.range 3).sum (fun i => 2 ^ i * ed25519.bit nonce i) <
      8 := sum_bits_lt nonce 3
  have hS1 : (Finset.range 251).sum
      (fun i => 2 ^ (3 + i) * ed25519.bit nonce (3 + i)) =
      8 * (Finset.range 251).sum
        (fun i => 2 ^ i * ed25519.bit nonce (3 + i)) := by
    rw [Finset.mul_sum]
    apply Finset.sum_congr rfl
    intro i _
    rw [pow_add]
    ring
  have hdiv : (Finset.range 254).sum (fun i => 2 ^ i * ed25519.bit nonce i) /
      8 * 8 = (Finset.range 251).sum
        (fun i => 2 ^ (3 + i) * ed25519.bit nonce (3 + i)) := by
    rw [hsplit, hS1]
    omega
  have hIco : (Finset.Ico 3 254).sum (fun i => 2 ^ i * ed25519.bit nonce i) =
      (Finset.range 251).sum
        (fun i => 2 ^ (3 + i) * ed25519.bit nonce (3 + i)) := by
    rw [Finset.sum_Ico_eq_sum_range]
  unfold blindedPubkeyMult clampedScalarSpec
  rw [show ed25519.b - 2 = 254 from rfl, hIco, hmod, hdiv]

/-! ## C5 -/

/-- C5: `_blinded_pubkey` computes exactly the encoding of `s * P`, where
`P` is the decoded identity point and `s` is the standard Edwards
clamping of the 32-byte nonce - the little-endian nonce value with bits
0-2 and bit 255 cleared and bit 254 set (`clampedScalarSpec`); the
scalar the code builds from its bit-sum formula equals that clamped
value.  Determinism is immediate: the embedding is a pure function of
its arguments. -/
theorem c5_blinded_pubkey_clamped (identityKey blindingNonce : List Nat)
    (hlen : blindingNonce.length = 32)
    (hB : ∀ x ∈ blindingNonce, x < 256) :
    blindedPubkey identityKey blindingNonce =
      (ed25519.decodepoint identityKey).map
        (fun P => ed25519.encodepoint
          (ed25519.scalarmult P (clampedScalarSpec blindingNonce))) := by
  unfold blindedPubkey
  rw [blindedPubkeyMult_eq_clamped blindingNonce hlen hB]

/-- C5 witness: the clamping equation instantiated at a concrete 32-byte
nonce and key. -/
theorem c5_blinded_pubkey_clamped_witness :
    blindedPubkey [1, 2] (List.replicate 32 0) =
      (ed25519.decodepoint [1, 2]).map
        (fun P => ed25519.encodepoint
          (ed25519.scalarmult P (clampedScalarSpec (List.replicate 32 0)))) :=
  c5_blinded_pubkey_clamped [1, 2] (List.replicate 32 0) (by simp)
    (fun x hx => by
      have := List.eq_of_mem_replicate hx
      omega)

/-! ## C6 -/

/-- C6 (amended): when an introduction point's `auth-key` or
`enc-key-cert` block is tagged as anything other than `ED25519 CERT`,
`IntroductionPointV3.parse` never returns an introduction point
(conjunct 1); but because the source parses the certificate from base64
BEFORE checking its block type, the rejection is the certificate-type
error only when the block's content parses as a certificate (and the
link specifiers parse): conjuncts 2 and 3.  With malformed certificate
content, the rejection is the parse error of the certificate
collaborator instead (see the counterexample). -/
theorem c6_parse_cert_type_guard {LS Cert : Type}
    (plinks : List Nat → Except PyErr (List LS))
    (certB64 : List Nat → Except PyErr Cert)
    (entry : IntroEntry)
    (hwrong : entry.authKeyBlockType ≠ "ED25519 CERT" ∨
      entry.encKeyCertBlockType ≠ "ED25519 CERT") :
    (∀ ip, introPointParse plinks certB64 entry ≠ .ok ip) ∧
    (entry.authKeyBlockType ≠ "ED25519 CERT" →
      ∀ ls cert, plinks entry.introPointValue = .ok ls →
        certB64 entry.authKeyBlock = .ok cert →
        introPointParse plinks certB64 entry =
          .error ⟨.valueError, .authKeyCertWrongType⟩) ∧
    (entry.authKeyBlockType = "ED25519 CERT" →
      entry.encKeyCertBlockType ≠ "ED25519 CERT" →
      ∀ ls certA certE, plinks entry.introPointValue = .ok ls →
        certB64 entry.authKeyBlock = .ok certA →
        certB64 entry.encKeyCertBlock = .ok certE →
        introPointParse plinks certB64 entry =
          .error ⟨.valueError, .encKeyCertWrongType⟩) := by
  refine ⟨?_, ?_, ?_⟩
  · intro ip
    unfold introPointParse
    cases hpl : plinks entry.introPointValue with
    | error e => simp [Bind.bind, Except.bind]
    | ok ls =>
      cases hca : certB64 entry.authKeyBlock with
      | error e => simp [Bind.bind, Except.bind]
      | ok certA =>
        by_cases hat : entry.authKeyBlockType ≠ "ED25519 CERT"
        · simp [Bind.bind, Except.bind, hat]
        · have hat2 : entry.authKeyBlockType = "ED25519 CERT" := not_not.mp hat
          have het : entry.encKeyCertBlockType ≠ "ED25519 CERT" := by
            rcases hwrong with h | h
            · exact absurd hat2 h
            · exact h
          cases hce : certB64 entry.encKeyCertBlock with
          | error e => simp [Bind.bind, Except.bind, hat]
          | ok certE => simp [Bind.bind, Except.bind, hat, het]
  · intro hat ls cert hpl hca
    unfold introPointParse
    rw [hpl, hca]
    simp [Bind.bind, Except.bind, hat]
  · intro hat2 het ls certA certE hpl hca hce
    unfold introPointParse
    rw [hpl, hca]
    simp [Bind.bind, Except.bind, hat2, het, hce]

/-- C6 witness: with both collaborators succeeding and the `auth-key`
block tagged `RSA PUBLIC KEY`, parse rejects with the certificate-type
error and never returns an introduction point. -/
theorem c6_parse_cert_type_guard_witness :
    (∀ ip, @introPointParse Unit Unit (fun _ => .ok [()])
        (fun _ => .ok ())
        ⟨[], [], "RSA PUBLIC KEY", [], [], "ED25519 CERT", [], none, none⟩ ≠
        .ok ip) ∧
    (("RSA PUBLIC KEY" : String) ≠ "ED25519 CERT" →
      ∀ ls cert, (fun (_ : List Nat) => (.ok [()] :
          Except PyErr (List Unit))) [] = .ok ls →
        (fun (_ : List Nat) => (.ok () : Except PyErr Unit)) [] = .ok cert →
        introPointParse (fun _ => .ok [()]) (fun _ => .ok ())
          ⟨[], [], "RSA PUBLIC KEY", [], [], "ED25519 CERT", [], none, none⟩ =
          .error ⟨.valueError, .authKeyCertWrongType⟩) ∧
    (("RSA PUBLIC KEY" : String) = "ED25519 CERT" →
      ("ED25519 CERT" : String) ≠ "ED25519 CERT" →
      ∀ ls certA certE, (fun (_ : List Nat) => (.ok [()] :
          Except PyErr (List Unit))) [] = .ok ls →
        (fun (_ : List Nat) => (.ok () : Except PyErr Unit)) [] = .ok certA →
        (fun (_ : List Nat) => (.ok () : Except PyErr Unit)) [] = .ok certE →
        introPointParse (fun _ => .ok [()]) (fun _ => .ok ())
          ⟨[], [], "RSA PUBLIC KEY", [], [], "ED25519 CERT", [], none, none⟩ =
          .error ⟨.valueError, .encKeyCertWrongType⟩) :=
  c6_parse_cert_type_guard (fun _ => .ok [()]) (fun _ => .ok ())
    ⟨[], [], "RSA PUBLIC KEY", [], [], "ED25519 CERT", [], none, none⟩
    (Or.inl (by decide))

/-- C6 counterexample to the claim as stated: an introduction point whose
`auth-key` block is tagged `RSA PUBLIC KEY` but whose block content does
not parse as an ed25519 certificate is rejected with the certificate
collaborator's parse error, not with a certificate-type error - the
source calls `Ed25519Certificate.from_base64` before checking the block
type, so the "rejects with a certificate-type error" part of the claim
fails for such inputs. -/
theorem c6_wrong_error_counterexample :
    @introPointParse Unit Unit (fun _ => .ok [])
      (fun _ => .error ⟨.valueError, .certParseFailed⟩)
      ⟨[], [], "RSA PUBLIC KEY", [], [], "ED25519 CERT", [], none, none⟩ =
      .error ⟨.valueError, .certParseFailed⟩ ∧
    (⟨.valueError, .certParseFailed⟩ : PyErr) ≠
      ⟨.valueError, .authKeyCertWrongType⟩ ∧
    ("RSA PUBLIC KEY" : String) ≠ "ED25519 CERT" :=
  ⟨rfl, by decide, by decide⟩

end Stem
